import Mathlib

/-!
Verification of the text-scanning front end and repository indexer of the
`go_template` package (files `parser.py` and `repository.py`, with one error
path from `generator.py`).

The Python code scans source text with index-based loops; here every scanner
is embedded as a structurally recursive function over `List Char`, carrying
the loop's implicit state (inside a string literal, inside a comment, ...)
as an explicit mode argument.  Each embedded function mirrors one Python
function; the correspondence is noted in its doc comment.
-/

/-- The backquote character (Go raw-string delimiter), written via its code
point. -/
def backquote : Char := Char.ofNat 96

/-! ## Comment mask: `parser.strip_comments_preserve_whitespace`

The Python loop walks an index `i` over the source, skipping string/char/raw
literals unchanged (helpers `_skip_string` / `_skip_raw_string`), blanking
`// ...` up to (excluding) the newline, and blanking `/* ... */` while
keeping embedded newlines.  The loop position is equivalent to a mode:
`norm` (top level), `str q` (inside a quoted literal with delimiter `q`),
`raw` (inside a raw string), `line` (inside a line comment), `block`
(inside a block comment).

One subtlety of the source is kept faithfully: the block-comment loop runs
`while j < length - 1`, so an unterminated block comment leaves the very
last character of the input unmasked; the outer loop then reprocesses that
single trailing character in normal state, which never changes a lone
character.  This is the `.block, [c] => [c]` case below. -/

inductive CMode where
  | norm
  | str (q : Char)
  | raw
  | line
  | block
  deriving DecidableEq, Repr

/-- State-machine embedding of `strip_comments_preserve_whitespace`. -/
def scrubFrom : CMode → List Char → List Char
  | _, [] => []
  | .norm, '"' :: rest => '"' :: scrubFrom (.str '"') rest
  | .norm, '\'' :: rest => '\'' :: scrubFrom (.str '\'') rest
  | .norm, '/' :: '/' :: rest => ' ' :: ' ' :: scrubFrom .line rest
  | .norm, '/' :: '*' :: rest => ' ' :: ' ' :: scrubFrom .block rest
  | .norm, c :: rest =>
      if c = backquote then c :: scrubFrom .raw rest else c :: scrubFrom .norm rest
  | .str q, '\\' :: c :: rest => '\\' :: c :: scrubFrom (.str q) rest
  | .str q, c :: rest =>
      if c = q then c :: scrubFrom .norm rest else c :: scrubFrom (.str q) rest
  | .raw, c :: rest =>
      if c = backquote then c :: scrubFrom .norm rest else c :: scrubFrom .raw rest
  | .line, '\n' :: rest => '\n' :: scrubFrom .norm rest
  | .line, _ :: rest => ' ' :: scrubFrom .line rest
  | .block, '*' :: '/' :: rest => ' ' :: ' ' :: scrubFrom .norm rest
  | .block, [c] => [c]
  | .block, c :: rest => (if c = '\n' then '\n' else ' ') :: scrubFrom .block rest

/-- `strip_comments_preserve_whitespace` on a whole source text. -/
def stripCommentsPreserveWhitespace (l : List Char) : List Char :=
  scrubFrom .norm l

/-! ## Literal mask: `repository._mask_string_literals`

Same looping structure; the quoted-string helper `_mask_quoted_string`
blanks every character it visits (including the closing quote and any
embedded newline, and both characters of an escape sequence), while the
raw-string helper `_mask_raw_string_literal` keeps embedded newlines and
does not blank the closing backquote. -/

inductive LMode where
  | norm
  | quoted (q : Char)
  | raw
  deriving DecidableEq, Repr

/-- State-machine embedding of `_mask_string_literals`. -/
def maskLitFrom : LMode → List Char → List Char
  | _, [] => []
  | .norm, '"' :: rest => '"' :: maskLitFrom (.quoted '"') rest
  | .norm, '\'' :: rest => '\'' :: maskLitFrom (.quoted '\'') rest
  | .norm, c :: rest =>
      if c = backquote then c :: maskLitFrom .raw rest else c :: maskLitFrom .norm rest
  | .quoted q, '\\' :: _ :: rest => ' ' :: ' ' :: maskLitFrom (.quoted q) rest
  | .quoted q, c :: rest =>
      if c = q then ' ' :: maskLitFrom .norm rest else ' ' :: maskLitFrom (.quoted q) rest
  | .raw, c :: rest =>
      if c = backquote then c :: maskLitFrom .norm rest
      else (if c = '\n' then '\n' else ' ') :: maskLitFrom .raw rest

/-- `_mask_string_literals` on a whole text. -/
def maskStringLiterals (l : List Char) : List Char :=
  maskLitFrom .norm l

/-- Newline indicator used to state "newlines sit at the same offsets". -/
def isNL (c : Char) : Bool := c == '\n'

theorem scrubFrom_map_isNL (m : CMode) (l : List Char) :
    (scrubFrom m l).map isNL = l.map isNL := by
  induction m, l using scrubFrom.induct <;> simp_all [scrubFrom, isNL]

theorem scrubFrom_length (m : CMode) (l : List Char) :
    (scrubFrom m l).length = l.length := by
  have h := scrubFrom_map_isNL m l
  simpa using congrArg List.length h

theorem maskLitFrom_length (m : LMode) (l : List Char) :
    (maskLitFrom m l).length = l.length := by
  induction m, l using maskLitFrom.induct <;> simp_all [maskLitFrom]

example : scrubFrom .norm "ab // c\nd".data = "ab     \nd".data := by decide
example : scrubFrom .norm "/*abc".data = "    c".data := by decide
example : maskStringLiterals "x(\"fo\") y".data = "x(\"   ) y".data := by decide

/-! ### Unfolding ("step") lemmas for `scrubFrom`

The definitional equations, restated so that later proofs can rewrite with
them under hypotheses about the head character. -/

theorem scrub_nil (m : CMode) : scrubFrom m [] = [] := by cases m <;> rfl

theorem scrub_norm_dq (rest : List Char) :
    scrubFrom .norm ('"' :: rest) = '"' :: scrubFrom (.str '"') rest := rfl

theorem scrub_norm_sq (rest : List Char) :
    scrubFrom .norm ('\'' :: rest) = '\'' :: scrubFrom (.str '\'') rest := rfl

theorem scrub_norm_lc (rest : List Char) :
    scrubFrom .norm ('/' :: '/' :: rest) = ' ' :: ' ' :: scrubFrom .line rest := rfl

theorem scrub_norm_bc (rest : List Char) :
    scrubFrom .norm ('/' :: '*' :: rest) = ' ' :: ' ' :: scrubFrom .block rest := rfl

theorem scrub_norm_catchall (c : Char) (rest : List Char) (h1 : c ≠ '"') (h2 : c ≠ '\'')
    (h3 : c = '/' → ∀ d t, rest = d :: t → d ≠ '/' ∧ d ≠ '*') :
    scrubFrom .norm (c :: rest) =
      if c = backquote then c :: scrubFrom .raw rest else c :: scrubFrom .norm rest := by
  refine scrubFrom.eq_6 c rest (fun h => h1 h) (fun h => h2 h) ?_ ?_
  · intro r hc hr ; exact (h3 hc '/' r hr).1 rfl
  · intro r hc hr ; exact (h3 hc '*' r hr).2 rfl

theorem scrub_norm_bq (rest : List Char) :
    scrubFrom .norm (backquote :: rest) = backquote :: scrubFrom .raw rest := by
  rw [scrub_norm_catchall backquote rest (by decide) (by decide) (by intro h ; exact absurd h (by decide))]
  simp

theorem scrub_norm_other (c : Char) (rest : List Char) (h1 : c ≠ '"') (h2 : c ≠ '\'')
    (h3 : c ≠ '/') (h4 : c ≠ backquote) :
    scrubFrom .norm (c :: rest) = c :: scrubFrom .norm rest := by
  rw [scrub_norm_catchall c rest h1 h2 (fun h => absurd h h3)]
  simp [h4]

theorem scrub_norm_slash (d : Char) (t : List Char) (h1 : d ≠ '/') (h2 : d ≠ '*') :
    scrubFrom .norm ('/' :: d :: t) = '/' :: scrubFrom .norm (d :: t) := by
  rw [scrub_norm_catchall '/' (d :: t) (by decide) (by decide)
    (fun _ d' t' hdt => by cases hdt ; exact ⟨h1, h2⟩)]
  simp [show ('/' : Char) ≠ backquote by decide]

theorem scrub_norm_slash_nil : scrubFrom .norm ['/'] = ['/'] := by
  rw [scrub_norm_catchall '/' [] (by decide) (by decide) (fun _ d' t' hdt => by cases hdt)]
  simp [show ('/' : Char) ≠ backquote by decide, scrubFrom]

theorem scrub_str_esc (q c : Char) (rest : List Char) :
    scrubFrom (.str q) ('\\' :: c :: rest) = '\\' :: c :: scrubFrom (.str q) rest := rfl

theorem scrub_str_cons (q c : Char) (rest : List Char) (hc : c ≠ '\\') :
    scrubFrom (.str q) (c :: rest) =
      if c = q then c :: scrubFrom .norm rest else c :: scrubFrom (.str q) rest := by
  exact scrubFrom.eq_8 q c rest (fun _ _ h _ => hc h)

theorem scrub_str_esc_nil (q : Char) :
    scrubFrom (.str q) ['\\'] =
      if '\\' = q then '\\' :: scrubFrom .norm [] else '\\' :: scrubFrom (.str q) [] := by
  exact scrubFrom.eq_8 q '\\' [] (fun _ _ _ h => List.noConfusion h)

theorem scrub_raw_cons (c : Char) (rest : List Char) :
    scrubFrom .raw (c :: rest) =
      if c = backquote then c :: scrubFrom .norm rest else c :: scrubFrom .raw rest := rfl

theorem scrub_line_nl (rest : List Char) :
    scrubFrom .line ('\n' :: rest) = '\n' :: scrubFrom .norm rest := rfl

theorem scrub_line_other (c : Char) (rest : List Char) (h : c ≠ '\n') :
    scrubFrom .line (c :: rest) = ' ' :: scrubFrom .line rest := by
  exact scrubFrom.eq_11 c rest (fun hc => h hc)

theorem scrub_block_close (rest : List Char) :
    scrubFrom .block ('*' :: '/' :: rest) = ' ' :: ' ' :: scrubFrom .norm rest := rfl

theorem scrub_block_single (c : Char) : scrubFrom .block [c] = [c] := by
  exact scrubFrom.eq_13 c

theorem scrub_block_cons (c d : Char) (t : List Char) (h : ¬(c = '*' ∧ d = '/')) :
    scrubFrom .block (c :: d :: t) =
      (if c = '\n' then '\n' else ' ') :: scrubFrom .block (d :: t) := by
  refine scrubFrom.eq_14 c (d :: t) ?_ (fun hh => List.noConfusion hh)
  intro r hc hr
  cases hr
  exact h ⟨hc, rfl⟩

/-- The comment mask either keeps the first character or blanks it to a
space; it never creates a new comment-start or literal-start character. -/
theorem scrub_norm_head (l : List Char) :
    (scrubFrom .norm l).head? = l.head? ∨ (scrubFrom .norm l).head? = some ' ' := by
  cases l with
  | nil => left ; rfl
  | cons c rest =>
    by_cases h1 : c = '"'
    · subst h1 ; rw [scrub_norm_dq] ; left ; rfl
    · by_cases h2 : c = '\''
      · subst h2 ; rw [scrub_norm_sq] ; left ; rfl
      · by_cases h3 : c = '/'
        · subst h3
          cases rest with
          | nil => rw [scrub_norm_slash_nil] ; left ; rfl
          | cons d t =>
            by_cases hd : d = '/'
            · subst hd ; rw [scrub_norm_lc] ; right ; rfl
            · by_cases hd2 : d = '*'
              · subst hd2 ; rw [scrub_norm_bc] ; right ; rfl
              · rw [scrub_norm_slash d t hd hd2] ; left ; rfl
        · by_cases h4 : c = backquote
          · subst h4 ; rw [scrub_norm_bq] ; left ; rfl
          · rw [scrub_norm_other c rest h1 h2 h3 h4] ; left ; rfl

/-- A single character is never changed by the comment mask. -/
theorem scrub_norm_single (c : Char) : scrubFrom .norm [c] = [c] := by
  by_cases h1 : c = '"'
  · subst h1 ; rfl
  · by_cases h2 : c = '\''
    · subst h2 ; rfl
    · by_cases h3 : c = '/'
      · subst h3 ; exact scrub_norm_slash_nil
      · by_cases h4 : c = backquote
        · subst h4 ; rw [scrub_norm_bq] ; rfl
        · rw [scrub_norm_other c [] h1 h2 h3 h4] ; rfl

/-- Mode-indexed induction motive for idempotence of the comment mask:
in `norm` mode the mask is idempotent; a string-mode scan of an already
masked tail is unchanged; outputs of the comment-eating modes are fixed
points of the normal-mode mask. -/
def ScrubIdemP : CMode → List Char → Prop
  | .norm, l => scrubFrom .norm (scrubFrom .norm l) = scrubFrom .norm l
  | .str q, l => q ≠ '\\' →
      scrubFrom (.str q) (scrubFrom (.str q) l) = scrubFrom (.str q) l
  | .raw, l => scrubFrom .raw (scrubFrom .raw l) = scrubFrom .raw l
  | .line, l => scrubFrom .norm (scrubFrom .line l) = scrubFrom .line l
  | .block, l => scrubFrom .norm (scrubFrom .block l) = scrubFrom .block l

theorem space_ne_dq : (' ' : Char) ≠ '"' := by decide
theorem space_step (t : List Char) : scrubFrom .norm (' ' :: t) = ' ' :: scrubFrom .norm t :=
  scrub_norm_other ' ' t (by decide) (by decide) (by decide) (by decide)
theorem nl_step (t : List Char) : scrubFrom .norm ('\n' :: t) = '\n' :: scrubFrom .norm t :=
  scrub_norm_other '\n' t (by decide) (by decide) (by decide) (by decide)

theorem scrubIdemP_all (m : CMode) (l : List Char) : ScrubIdemP m l := by
  induction m, l using scrubFrom.induct
  case case1 x =>
    cases x <;> simp [ScrubIdemP, scrub_nil]
  case case2 rest ih =>
    simp only [ScrubIdemP] at ih ⊢
    rw [scrub_norm_dq, scrub_norm_dq, ih (by decide)]
  case case3 rest ih =>
    simp only [ScrubIdemP] at ih ⊢
    rw [scrub_norm_sq, scrub_norm_sq, ih (by decide)]
  case case4 rest ih =>
    simp only [ScrubIdemP] at ih ⊢
    rw [scrub_norm_lc, space_step, space_step, ih]
  case case5 rest ih =>
    simp only [ScrubIdemP] at ih ⊢
    rw [scrub_norm_bc, space_step, space_step, ih]
  case case6 rest h1 h2 h3 h4 ih =>
    simp only [ScrubIdemP] at ih ⊢
    rw [scrub_norm_bq, scrub_norm_bq, ih]
  case case7 c rest h1 h2 h3 h4 h5 ih =>
    simp only [ScrubIdemP] at ih ⊢
    by_cases hc : c = '/'
    · subst hc
      cases rest with
      | nil => rw [scrub_norm_slash_nil, scrub_norm_slash_nil]
      | cons d t =>
        have hd1 : d ≠ '/' := fun h => h3 t rfl (by rw [h])
        have hd2 : d ≠ '*' := fun h => h4 t rfl (by rw [h])
        rw [scrub_norm_slash d t hd1 hd2]
        have hlen : scrubFrom .norm (d :: t) ≠ [] := by
          intro hx
          have := scrubFrom_length .norm (d :: t)
          rw [hx] at this
          simp at this
        obtain ⟨d', t', hS⟩ : ∃ d' t', scrubFrom .norm (d :: t) = d' :: t' := by
          cases hY : scrubFrom .norm (d :: t) with
          | nil => exact absurd hY hlen
          | cons a b => exact ⟨a, b, rfl⟩
        have hd' : d' = d ∨ d' = ' ' := by
          have := scrub_norm_head (d :: t)
          rw [hS] at this
          simpa using this
        have hd'1 : d' ≠ '/' := by rcases hd' with h | h <;> rw [h] <;> first | exact hd1 | decide
        have hd'2 : d' ≠ '*' := by rcases hd' with h | h <;> rw [h] <;> first | exact hd2 | decide
        rw [hS, scrub_norm_slash d' t' hd'1 hd'2, ← hS, ih]
    · rw [scrub_norm_other c rest (fun h => h1 h) (fun h => h2 h) hc h5,
        scrub_norm_other c _ (fun h => h1 h) (fun h => h2 h) hc h5, ih]
  case case8 q c rest ih =>
    simp only [ScrubIdemP] at ih ⊢
    intro hq
    rw [scrub_str_esc, scrub_str_esc, ih hq]
  case case9 c rest harm ih =>
    simp only [ScrubIdemP] at ih ⊢
    intro hq
    rw [scrub_str_cons c c rest hq, if_pos rfl, scrub_str_cons c c _ hq, if_pos rfl, ih]
  case case10 q c rest harm hne ih =>
    simp only [ScrubIdemP] at ih ⊢
    intro hq
    by_cases hc : c = '\\'
    · subst hc
      have hrest : rest = [] := by
        cases rest with
        | nil => rfl
        | cons a b => exact absurd rfl (fun h => harm a b h rfl)
      subst hrest
      rw [scrub_str_esc_nil, if_neg (fun h => hq h.symm), scrub_nil,
        scrub_str_esc_nil, if_neg (fun h => hq h.symm), scrub_nil]
    · rw [scrub_str_cons q c rest hc, if_neg hne, scrub_str_cons q c _ hc, if_neg hne, ih hq]
  case case11 rest ih =>
    simp only [ScrubIdemP] at ih ⊢
    rw [scrub_raw_cons, if_pos rfl, scrub_raw_cons, if_pos rfl, ih]
  case case12 c rest hne ih =>
    simp only [ScrubIdemP] at ih ⊢
    rw [scrub_raw_cons, if_neg hne, scrub_raw_cons, if_neg hne, ih]
  case case13 rest ih =>
    simp only [ScrubIdemP] at ih ⊢
    rw [scrub_line_nl, nl_step, ih]
  case case14 c rest hne ih =>
    simp only [ScrubIdemP] at ih ⊢
    rw [scrub_line_other c rest (fun h => hne h), space_step, ih]
  case case15 rest ih =>
    simp only [ScrubIdemP] at ih ⊢
    rw [scrub_block_close, space_step, space_step, ih]
  case case16 c =>
    simp only [ScrubIdemP]
    rw [scrub_block_single, scrub_norm_single]
  case case17 c rest harm hnil ih =>
    simp only [ScrubIdemP] at ih ⊢
    obtain ⟨d, t, hdt⟩ : ∃ d t, rest = d :: t := by
      cases rest with
      | nil => exact absurd rfl hnil
      | cons a b => exact ⟨a, b, rfl⟩
    subst hdt
    have hstar : ¬(c = '*' ∧ d = '/') := by
      rintro ⟨hc, hd⟩
      exact harm t hc (by rw [hd])
    rw [scrub_block_cons c d t hstar]
    by_cases hcn : c = '\n'
    · rw [if_pos hcn, nl_step, ih]
    · rw [if_neg hcn, space_step, ih]

/-- Idempotence of the comment mask (`strip_comments_preserve_whitespace`). -/
theorem stripComments_idem (l : List Char) :
    stripCommentsPreserveWhitespace (stripCommentsPreserveWhitespace l) =
      stripCommentsPreserveWhitespace l :=
  scrubIdemP_all .norm l

/-- C4 counterexample: the literal mask does not keep newlines at the same
offsets on every input — a newline inside an (unterminated) quoted literal
is blanked to a space (`_mask_quoted_string` writes `chars[i] = " "`
unconditionally, newline included). -/
theorem c4_counterexample :
    ¬ ((maskStringLiterals ['"', '\n']).map isNL = (['"', '\n'] : List Char).map isNL) := by
  decide

/-- C4 (amended): both masks return a string of exactly the same length as
their input; the comment mask additionally keeps newline characters at
exactly the same offsets, while the literal mask keeps length but may blank
a newline that sits inside a quoted or character literal. -/
theorem c4_masks_preserve_length_and_comment_mask_newlines :
    (∀ l : List Char,
        (stripCommentsPreserveWhitespace l).length = l.length ∧
        (stripCommentsPreserveWhitespace l).map isNL = l.map isNL) ∧
    (∀ l : List Char, (maskStringLiterals l).length = l.length) := by
  refine ⟨fun l => ⟨scrubFrom_length .norm l, scrubFrom_map_isNL .norm l⟩,
    fun l => maskLitFrom_length .norm l⟩

/-- C5 counterexample: the literal mask is not idempotent.  Masking
`"a" x "b"` blanks both closing quotes, so a second application sees one
long quoted literal `"   x "` and blanks the `x` between the two original
literals. -/
theorem c5_counterexample :
    ¬ (maskStringLiterals (maskStringLiterals "\"a\" x \"b\"".data) =
        maskStringLiterals "\"a\" x \"b\"".data) := by
  decide

/-- C5 (amended): the comment mask is idempotent on every input, and neither
mask can fail: both are total functions.  An unterminated quoted literal is
masked by the literal mask through to the end of the input, and an
unterminated line comment by the comment mask likewise; an unterminated
block comment is masked through to the end of the input except for the very
last character, which survives.  The literal mask itself is *not* idempotent
(see the counterexample). -/
theorem c5_comment_mask_idempotent_and_unterminated_runs :
    (∀ l : List Char,
        stripCommentsPreserveWhitespace (stripCommentsPreserveWhitespace l) =
          stripCommentsPreserveWhitespace l) ∧
    maskStringLiterals "\"ab".data = "\"  ".data ∧
    stripCommentsPreserveWhitespace "// ab".data = "     ".data ∧
    stripCommentsPreserveWhitespace "/*abc".data = "    c".data := by
  exact ⟨stripComments_idem, by decide, by decide, by decide⟩

/-! ## Balanced-delimiter extraction: `parser.extract_balanced`

`extract_balanced(source, start, open, close)` requires `source[start]` to be
the opening delimiter and scans forward tracking nesting depth, jumping over
quoted/char/raw literals (delimiters inside literals do not affect depth).
It returns the group including both delimiters plus the resume position, and
raises `ValueError` when the input ends first — embedded as `Option`. -/

/-- Whitespace set of the source's `_skip_whitespace` (`" \t\r\n"`). -/
def isWs4 (c : Char) : Bool := c = ' ' ∨ c = '\t' ∨ c = '\r' ∨ c = '\n'

/-- ASCII model of Python's `str.strip()` / `str.split()` whitespace. -/
def isPySpace (c : Char) : Bool :=
  c = ' ' ∨ c = '\t' ∨ c = '\r' ∨ c = '\n' ∨ c = '\x0b' ∨ c = '\x0c'

/-- Python `str.strip()` (ASCII whitespace). -/
def trimPy (l : List Char) : List Char :=
  ((l.dropWhile isPySpace).reverse.dropWhile isPySpace).reverse

/-- Python `str.split()` with no arguments: split on whitespace runs,
dropping empty tokens.  `cur` holds the characters of the token being read,
in reverse. -/
def wsSplitGo (cur : List Char) : List Char → List (List Char)
  | [] => if cur = [] then [] else [cur.reverse]
  | c :: rest =>
      if isPySpace c then
        if cur = [] then wsSplitGo [] rest else cur.reverse :: wsSplitGo [] rest
      else wsSplitGo (c :: cur) rest

def wsSplit (l : List Char) : List (List Char) := wsSplitGo [] l

/-- Scanner core of `extract_balanced`, already past the opening delimiter.
`LMode` is reused purely as the literal-tracking state (`norm` / inside a
quoted literal / inside a raw string); `d` is the nesting depth of `o`. -/
def extBalGo (o cl : Char) : LMode → Nat → List Char → Option (List Char × List Char)
  | _, _, [] => none
  | .norm, d, x :: rest =>
      if x = '"' then (extBalGo o cl (.quoted '"') d rest).map (fun p => (x :: p.1, p.2))
      else if x = '\'' then (extBalGo o cl (.quoted '\'') d rest).map (fun p => (x :: p.1, p.2))
      else if x = backquote then (extBalGo o cl .raw d rest).map (fun p => (x :: p.1, p.2))
      else if x = o then (extBalGo o cl .norm (d + 1) rest).map (fun p => (x :: p.1, p.2))
      else if x = cl then
        if d = 0 then some ([x], rest)
        else (extBalGo o cl .norm (d - 1) rest).map (fun p => (x :: p.1, p.2))
      else (extBalGo o cl .norm d rest).map (fun p => (x :: p.1, p.2))
  | .quoted q, d, '\\' :: y :: rest =>
      (extBalGo o cl (.quoted q) d rest).map (fun p => ('\\' :: y :: p.1, p.2))
  | .quoted q, d, y :: rest =>
      if y = q then (extBalGo o cl .norm d rest).map (fun p => (y :: p.1, p.2))
      else (extBalGo o cl (.quoted q) d rest).map (fun p => (y :: p.1, p.2))
  | .raw, d, y :: rest =>
      if y = backquote then (extBalGo o cl .norm d rest).map (fun p => (y :: p.1, p.2))
      else (extBalGo o cl .raw d rest).map (fun p => (y :: p.1, p.2))

/-- `extract_balanced`: `none` models the raised `ValueError` (missing
opening delimiter, or unbalanced input). -/
def extractBalanced (o cl : Char) (l : List Char) : Option (List Char × List Char) :=
  match l with
  | [] => none
  | x :: rest =>
      if x = o then (extBalGo o cl .norm 0 rest).map (fun p => (x :: p.1, p.2))
      else none

example : extractBalanced '(' ')' "(a(b)c)rest".data = some ("(a(b)c)".data, "rest".data) := by
  decide
example : extractBalanced '(' ')' "(a\")\"b)r".data = some ("(a\")\"b)".data, "r".data) := by
  decide
example : extractBalanced '(' ')' "(ab".data = none := by decide

/-! ## Signature parsing: `parser._parse_single_func` -/

/-- The parsed-function record built by `_parse_single_func` (string
fields only; location fields are attached later by the indexer). -/
structure FuncInfo where
  receiver : String
  receiverType : Option String
  name : String
  fullName : String
  params : String
  returns : String
  body : String
  deriving DecidableEq, Repr

/-- Identifier characters of the name scan (`isalnum() or "_"`, ASCII). -/
def isIdentChar (c : Char) : Bool := c.isAlphanum ∨ c = '_'

/-- `parser._extract_receiver_type`: last whitespace-separated token of the
parenthesized receiver clause when it has at least two tokens.  Note that
the token is returned verbatim — a leading `*` is *not* stripped here. -/
def extractReceiverType (receiver : List Char) : Option String :=
  if receiver = [] then none
  else
    let content := trimPy receiver
    match content with
    | '(' :: more =>
        if content.getLast? = some ')' then
          let inner := trimPy (('(' :: more).drop 1).dropLast
          if inner = [] then none
          else
            match (wsSplit inner).getLast? with
            | some lastTok => if (wsSplit inner).length ≥ 2 then some ⟨lastTok⟩ else none
            | none => none
        else none
    | _ => none

/-- Return-clause reader for the unparenthesized case: read until `{`, a
newline, or a `//` / `/*` comment starter. -/
def readReturnsBuf : List Char → List Char × List Char
  | [] => ([], [])
  | '{' :: rest => ([], '{' :: rest)
  | '\n' :: rest => ([], '\n' :: rest)
  | '/' :: d :: rest =>
      if d = '/' ∨ d = '*' then ([], '/' :: d :: rest)
      else
        let p := readReturnsBuf (d :: rest)
        ('/' :: p.1, p.2)
  | c :: rest =>
      let p := readReturnsBuf rest
      (c :: p.1, p.2)

/-- `parser._parse_single_func`: parse one signature starting at a `func`
token (the list starts with the four characters `func`).  Returns the
record plus the unconsumed rest of the input; `none` models the raised
`ValueError` for a malformed signature. -/
def parseSingleFunc (l : List Char) : Option (FuncInfo × List Char) := do
  let l1 := (l.drop 4).dropWhile isWs4
  let (receiver, l2) ←
    match l1 with
    | '(' :: _ => do
        let p ← extractBalanced '(' ')' l1
        pure (trimPy p.1, p.2.dropWhile isWs4)
    | _ => pure (([] : List Char), l1)
  let nameChars := l2.takeWhile isIdentChar
  let l3 := (l2.dropWhile isIdentChar).dropWhile isWs4
  let (generics, l4) ←
    match l3 with
    | '[' :: _ => do
        let p ← extractBalanced '[' ']' l3
        pure (trimPy p.1, p.2.dropWhile isWs4)
    | _ => pure (([] : List Char), l3)
  match l4 with
  | '(' :: _ => do
      let pp ← extractBalanced '(' ')' l4
      let params := trimPy pp.1
      let l5 := pp.2.dropWhile isWs4
      let (returns, l6) ←
        match l5 with
        | '(' :: _ => do
            let p ← extractBalanced '(' ')' l5
            pure (trimPy p.1, p.2.dropWhile isWs4)
        | _ =>
            let p := readReturnsBuf l5
            pure (trimPy p.1, p.2.dropWhile isWs4)
      let l7 := l6.dropWhile (fun c => ¬ (c = '{'))
      let (body, l8) ←
        match l7 with
        | '{' :: _ => do
            let p ← extractBalanced '{' '}' l7
            pure (p.1, p.2)
        | _ => pure (([] : List Char), l7)
      let paramsField :=
        match params with
        | '(' :: _ => trimPy (params.drop 1).dropLast
        | _ => params
      let returnsField :=
        match returns with
        | '(' :: _ =>
            if returns.getLast? = some ')' then trimPy (returns.drop 1).dropLast else returns
        | _ => returns
      pure
        ({ receiver := ⟨receiver⟩
           receiverType := extractReceiverType receiver
           name := ⟨nameChars⟩
           fullName := ⟨nameChars ++ generics⟩
           params := ⟨paramsField⟩
           returns := ⟨returnsField⟩
           body := ⟨body⟩ }, l8)
  | _ => none

example :
    parseSingleFunc "func (r *T) Name(a, b int) (int, error) { x }".data =
      some
        ({ receiver := "(r *T)", receiverType := some "*T", name := "Name",
           fullName := "Name", params := "a, b int", returns := "int, error",
           body := "{ x }" }, []) := by
  decide

/-! ## Identity keys and display labels -/

/-- Identity key `(file path, name, receiver type)` of
`repository._make_function_key`; a missing receiver type becomes `""`. -/
def FKey := String × String × String
deriving instance DecidableEq, Repr for FKey

def makeFunctionKey (filePath name : String) (receiverType : Option String) : FKey :=
  (filePath, name, receiverType.getD "")

/-- `repository._format_receiver_display`: strip leading `*`, a trailing
generic-argument list, and a package qualifier — used only to build display
labels, not identity keys. -/
def formatReceiverDisplay (receiverType : Option String) : String :=
  match receiverType with
  | none => ""
  | some rt =>
      if rt = "" then ""
      else
        let d0 := trimPy rt.data
        let d1 := d0.dropWhile (fun c => c = '*')
        let d2 := if d1.contains '[' then d1.takeWhile (fun c => ¬ (c = '[')) else d1
        let d3 :=
          if d2.contains '.' then (d2.reverse.takeWhile (fun c => ¬ (c = '.'))).reverse
          else d2
        if d3 = [] then rt else ⟨d3⟩

/-- C3 counterexample: parsing `func (r *T) Name(a, b int) (int, error) { x }`
does **not** yield receiver type `T`: `_extract_receiver_type` returns the
raw last token `*T`, pointer marker included, and that raw token is what
`_make_function_key` places in the identity key. -/
theorem c3_counterexample :
    ¬ ((parseSingleFunc "func (r *T) Name(a, b int) (int, error) { x }".data).map
        (fun p => p.1.receiverType) = some (some "T")) := by
  decide

/-- C3 (amended): the signature parses to receiver clause `(r *T)` with
receiver type `*T` (the raw last token of the clause — pointer marker kept),
full name `Name`, params `a, b int`, returns `int, error`; the identity key
built from it is `(file, "Name", "*T")`, and the `*`-stripped normalization
`T` is produced only by the display-label helper. -/
theorem c3_signature_parse :
    parseSingleFunc "func (r *T) Name(a, b int) (int, error) { x }".data =
      some
        ({ receiver := "(r *T)", receiverType := some "*T", name := "Name",
           fullName := "Name", params := "a, b int", returns := "int, error",
           body := "{ x }" }, []) ∧
    makeFunctionKey "pkg/file.go" "Name" (some "*T") = ("pkg/file.go", "Name", "*T") ∧
    formatReceiverDisplay (some "*T") = "T" := by
  exact ⟨by decide, rfl, by decide⟩

/-! ## Declaration extraction: `parser.extract_declarations`

The Python scanner walks the source with an index, skipping literals via
`_skip_string` / `_skip_raw_string`, counting braces with
`depth = max(depth - 1, 0)` clamping, and at depth 0 dispatching on the
whole-word tokens `type` / `const` / `var`.  The embedding uses fuel (one
unit per outer-loop iteration; every iteration consumes at least one
character, so `length + 1` fuel always suffices) and additionally returns
the list of depth values after each iteration, so that the clamping
invariant can be stated.  A `ValueError` escaping from
`extract_balanced` propagates out of `extract_declarations`; this is the
`none` result. -/

/-- `parser._skip_string`: skip past a quoted literal body (after the
opening quote), honouring backslash escapes. -/
def skipStr (q : Char) : List Char → List Char
  | [] => []
  | '\\' :: _ :: rest => skipStr q rest
  | c :: rest => if c = q then rest else skipStr q rest

/-- `parser._skip_raw_string`: skip past a raw literal body. -/
def skipRaw : List Char → List Char
  | [] => []
  | c :: rest => if c = backquote then rest else skipRaw rest

/-- Statement terminators of `parser._skip_statement_terminators`. -/
def isStmtTerm (c : Char) : Bool :=
  c = ' ' ∨ c = '\t' ∨ c = '\r' ∨ c = '\n' ∨ c = ';'

/-- Python `str.splitlines()` (ASCII line endings `\n`, `\r`, `\r\n`). -/
def splitLinesGo (cur : List Char) : List Char → List (List Char)
  | [] => if cur = [] then [] else [cur.reverse]
  | '\r' :: '\n' :: rest => cur.reverse :: splitLinesGo [] rest
  | '\n' :: rest => cur.reverse :: splitLinesGo [] rest
  | '\r' :: rest => cur.reverse :: splitLinesGo [] rest
  | c :: rest => splitLinesGo (c :: cur) rest

def splitLines (l : List Char) : List (List Char) := splitLinesGo [] l

/-- Word/space/comma character class of the `^[\w\s,]+` pattern in
`_extract_identifier_list` (ASCII). -/
def isIdlChar (c : Char) : Bool := isIdentChar c ∨ isPySpace c ∨ c = ','

/-- The prefix of `l` before the first occurrence of `pat`, or `none` when
`pat` does not occur (`op in head` / `head.split(op, 1)[0]`). -/
def beforeFirst (pat : List Char) : List Char → Option (List Char)
  | [] => if pat = [] then some [] else none
  | c :: rest =>
      if pat.isPrefixOf (c :: rest) then some []
      else (beforeFirst pat rest).map (c :: ·)

/-- Ordered assignment-like operators of `_extract_identifier_list`. -/
def stopOps : List (List Char) :=
  ["=", ":=", "+=", "-=", "*=", "/=", "%=", "|=", "&=", "^=", "<<=", ">>=", "&^="].map
    String.data

/-- Cut `head` at the first operator of `stopOps` (in tuple order) that
occurs in it; the loop `break`s after the first hit. -/
def applyStopOps : List (List Char) → List Char → List Char
  | [], h => h
  | op :: ops, h =>
      match beforeFirst op h with
      | some b => b
      | none => applyStopOps ops h

/-- `parser._extract_identifier_list`. -/
def extractIdentifierList (fragment : List Char) : List String :=
  if fragment = [] then []
  else
    let head0 := applyStopOps stopOps fragment
    let matched := head0.takeWhile isIdlChar
    let head1 := if matched = [] then head0 else matched
    (head1.splitOn ',').filterMap (fun part =>
      let name := trimPy part
      if name = [] then none
      else
        match (wsSplit name).head? with
        | some primary => if primary = [] then none else some (⟨primary⟩ : String)
        | none => none)

/-- `parser._read_simple_clause` scanner: read up to an unquoted `\n` or
`;`, crossing literals unchanged. -/
def rscGo : LMode → List Char → List Char × List Char
  | _, [] => ([], [])
  | .norm, c :: rest =>
      if c = '\n' ∨ c = ';' then ([], c :: rest)
      else if c = '"' then
        let p := rscGo (.quoted '"') rest
        (c :: p.1, p.2)
      else if c = '\'' then
        let p := rscGo (.quoted '\'') rest
        (c :: p.1, p.2)
      else if c = backquote then
        let p := rscGo .raw rest
        (c :: p.1, p.2)
      else
        let p := rscGo .norm rest
        (c :: p.1, p.2)
  | .quoted q, '\\' :: y :: rest =>
      let p := rscGo (.quoted q) rest
      ('\\' :: y :: p.1, p.2)
  | .quoted q, y :: rest =>
      if y = q then
        let p := rscGo .norm rest
        (y :: p.1, p.2)
      else
        let p := rscGo (.quoted q) rest
        (y :: p.1, p.2)
  | .raw, y :: rest =>
      if y = backquote then
        let p := rscGo .norm rest
        (y :: p.1, p.2)
      else
        let p := rscGo .raw rest
        (y :: p.1, p.2)

/-- `parser._read_simple_clause`: stripped clause plus the input after the
trailing statement terminators. -/
def readSimpleClause (l : List Char) : List Char × List Char :=
  let p := rscGo .norm l
  (trimPy p.1, p.2.dropWhile isStmtTerm)

/-- `parser._token_at`: the whole-word token `tok` starts here (`prev` is
the character consumed just before this position, a space at the start of
input). -/
def tokenHere (l tok : List Char) (prev : Char) : Bool :=
  decide (l.take tok.length = tok) && !(isIdentChar prev) &&
    (match (l.drop tok.length).head? with
     | some d => !(isIdentChar d)
     | none => true)

/-- Last character consumed when a scan moved from list `l` to its suffix
`r` (used to keep the `source[i-1]` boundary checks faithful across index
jumps); falls back to the previous value when nothing was consumed. -/
def lastConsumed (l r : List Char) (prev : Char) : Char :=
  ((l.take (l.length - r.length)).getLast?).getD prev

/-- `_parse_type_decl` names of one grouped-block line. -/
def typeGroupLineName (line : List Char) : Option String :=
  let s := trimPy line
  if s = [] then none
  else
    match (wsSplit s).head? with
    | none => none
    | some tok =>
        let tok2 := (tok.reverse.dropWhile (fun c => c = '{' ∨ c = '(')).reverse
        if tok2 = [] then none else some (⟨tok2⟩ : String)

/-- Names extracted by `_parse_const_var_decl` from a grouped block. -/
def constVarGroupNames (content : List Char) : List String :=
  (splitLines content).foldr
    (fun line acc =>
      let s := trimPy line
      if s = [] then acc else extractIdentifierList s ++ acc)
    []

/-- One step outcome of a `type` / `const` / `var` parse helper: the names
found, the remaining input, or `none` for a propagated `ValueError`. -/
def parseTypeDecl (afterKw : List Char) : Option (List String × List Char) :=
  let t1 := afterKw.dropWhile isWs4
  match t1 with
  | '(' :: _ =>
      match extractBalanced '(' ')' t1 with
      | none => none
      | some (block, rest') =>
          let content := (block.drop 1).dropLast
          some ((splitLines content).filterMap typeGroupLineName,
            rest'.dropWhile isStmtTerm)
  | _ =>
      let t2 := t1.dropWhile isWs4
      let ident := t2.takeWhile isIdentChar
      let r2 := t2.dropWhile isIdentChar
      some (if ident = [] then [] else [(⟨ident⟩ : String)], r2)

/-- `_parse_const_var_decl` (same shape for `const` and `var`). -/
def parseConstVarDecl (afterKw : List Char) : Option (List String × List Char) :=
  let t1 := afterKw.dropWhile isWs4
  match t1 with
  | '(' :: _ =>
      match extractBalanced '(' ')' t1 with
      | none => none
      | some (block, rest') =>
          some (constVarGroupNames ((block.drop 1).dropLast), rest'.dropWhile isStmtTerm)
  | _ =>
      let p := readSimpleClause t1
      some (extractIdentifierList p.1, p.2)

/-- Main scanner of `extract_declarations`: fuelled loop carrying the
previous character and the clamped `Int` brace depth, returning the three
name lists and the trace of depth values after each iteration. -/
def edGo : Nat → Char → Int → List Char →
    Option (List String × List String × List String) × List Int
  | 0, _, _, _ => (none, [])
  | _ + 1, _, _, [] => (some ([], [], []), [])
  | fuel + 1, prev, depth, c :: rest =>
      if c = '"' then
        let r := skipStr '"' rest
        let o := edGo fuel (lastConsumed (c :: rest) r '"') depth r
        (o.1, depth :: o.2)
      else if c = '\'' then
        let r := skipStr '\'' rest
        let o := edGo fuel (lastConsumed (c :: rest) r '\'') depth r
        (o.1, depth :: o.2)
      else if c = backquote then
        let r := skipRaw rest
        let o := edGo fuel (lastConsumed (c :: rest) r backquote) depth r
        (o.1, depth :: o.2)
      else if c = '{' then
        let o := edGo fuel c (depth + 1) rest
        (o.1, (depth + 1) :: o.2)
      else if c = '}' then
        let o := edGo fuel c (max (depth - 1) 0) rest
        (o.1, max (depth - 1) 0 :: o.2)
      else if depth = 0 && tokenHere (c :: rest) "type".data prev then
        match parseTypeDecl ((c :: rest).drop 4) with
        | none => (none, [depth])
        | some (names, r) =>
            let o := edGo fuel (lastConsumed (c :: rest) r 'e') depth r
            (o.1.map (fun t => (names ++ t.1, t.2.1, t.2.2)), depth :: o.2)
      else if depth = 0 && tokenHere (c :: rest) "const".data prev then
        match parseConstVarDecl ((c :: rest).drop 5) with
        | none => (none, [depth])
        | some (names, r) =>
            let o := edGo fuel (lastConsumed (c :: rest) r 't') depth r
            (o.1.map (fun t => (t.1, names ++ t.2.1, t.2.2)), depth :: o.2)
      else if depth = 0 && tokenHere (c :: rest) "var".data prev then
        match parseConstVarDecl ((c :: rest).drop 3) with
        | none => (none, [depth])
        | some (names, r) =>
            let o := edGo fuel (lastConsumed (c :: rest) r 'r') depth r
            (o.1.map (fun t => (t.1, t.2.1, names ++ t.2.2)), depth :: o.2)
      else
        let o := edGo fuel c depth rest
        (o.1, depth :: o.2)

/-- `parser.extract_declarations`: `(types, consts, vars)` in first-seen
order, or `none` for a propagated parse error. -/
def extractDeclarations (l : List Char) : Option (List String × List String × List String) :=
  (edGo (l.length + 1) ' ' 0 l).1

/-- Depth trace of the `extract_declarations` scan. -/
def extractDeclarationsDepths (l : List Char) : List Int :=
  (edGo (l.length + 1) ' ' 0 l).2

example : extractDeclarations "const ( A = 1; B = 2 )".data = some ([], ["A"], []) := by decide
example : extractDeclarations "const C = 3".data = some ([], ["C"], []) := by decide
example : extractDeclarations "func f() { var x = 1 }".data = some ([], [], []) := by decide
example : extractDeclarations "type A int\nvar b = 2".data = some (["A"], [], ["b"]) := by
  decide

/-! ## Function scanning: `parser.parse_functions`

Scans the comment-stripped text at depth 0 for whole-word `func` tokens
(the boundary characters are the explicit ASCII set of the source), then
parses the signature from the *original* text at the same offset.  Note
that this scan does not skip string literals: braces inside literals do
move the depth counter, exactly as in the source.  Same fuel/trace scheme
as `edGo`. -/

/-- The explicit boundary character set used by `parse_functions`
(`"_abc...XYZ0123456789"`). -/
def isAsciiIdent (c : Char) : Bool :=
  ('a' ≤ c ∧ c ≤ 'z') ∨ ('A' ≤ c ∧ c ≤ 'Z') ∨ ('0' ≤ c ∧ c ≤ '9') ∨ c = '_'

/-- Whole-word `func` detection on the stripped text (`before` check on the
previously consumed character, `after in " \t("` with a space default past
the end). -/
def funcHere (stp : List Char) (prev : Char) : Bool :=
  decide (stp.take 4 = "func".data) && !(isAsciiIdent prev) &&
    (match (stp.drop 4).head? with
     | some a => a = ' ' ∨ a = '\t' ∨ a = '('
     | none => true)

/-- Main loop of `parse_functions` over the source/stripped pair. -/
def pfGo : Nat → Char → Int → List Char → List Char →
    Option (List FuncInfo) × List Int
  | 0, _, _, _, _ => (none, [])
  | _ + 1, _, _, _, [] => (some [], [])
  | fuel + 1, prev, depth, src, c :: stRest =>
      if c = '{' then
        let o := pfGo fuel c (depth + 1) (src.drop 1) stRest
        (o.1, (depth + 1) :: o.2)
      else if c = '}' then
        let o := pfGo fuel c (max (depth - 1) 0) (src.drop 1) stRest
        (o.1, max (depth - 1) 0 :: o.2)
      else if depth = 0 && funcHere (c :: stRest) prev then
        match parseSingleFunc src with
        | none => (none, [depth])
        | some (info, srcRest) =>
            let consumed := src.length - srcRest.length
            let stRest' := (c :: stRest).drop consumed
            let o := pfGo fuel (lastConsumed (c :: stRest) stRest' prev) depth srcRest stRest'
            (o.1.map (info :: ·), depth :: o.2)
      else
        let o := pfGo fuel c depth (src.drop 1) stRest
        (o.1, depth :: o.2)

/-- `parser.parse_functions` on a source/stripped pair. -/
def parseFunctions (src stp : List Char) : Option (List FuncInfo) :=
  (pfGo (stp.length + 1) ' ' 0 src stp).1

/-- Depth trace of the `parse_functions` scan. -/
def parseFunctionsDepths (src stp : List Char) : List Int :=
  (pfGo (stp.length + 1) ' ' 0 src stp).2

/-- The indexer/generator call pattern: strip comments, then parse. -/
def parseSourceFunctions (src : List Char) : Option (List FuncInfo) :=
  parseFunctions src (stripCommentsPreserveWhitespace src)

example :
    parseSourceFunctions "func F() {}\nfunc (t T) G(a int) string { return x }".data =
      some
        [{ receiver := "", receiverType := none, name := "F", fullName := "F",
           params := "", returns := "", body := "{}" },
         { receiver := "(t T)", receiverType := some "T", name := "G", fullName := "G",
           params := "a int", returns := "string", body := "{ return x }" }] := by
  decide

example : parseSourceFunctions "func F(".data = none := by decide

example :
    parseSourceFunctions "\x7d\nfunc F() { x() }".data =
      some [{ receiver := "", receiverType := none, name := "F", fullName := "F",
              params := "", returns := "", body := "{ x() }" }] := by
  decide

/-- C8 counterexample: on `const ( A = 1; B = 2 )` the extractor does *not*
yield `["A", "B"]`.  The grouped block is split by *line* only; the single
line `A = 1; B = 2` is cut at the first `=`, leaving just `A`. -/
theorem c8_counterexample :
    ¬ (extractDeclarations "const ( A = 1; B = 2 )".data = some ([], ["A", "B"], [])) := by
  decide

/-- C8 (amended): on `const ( A = 1; B = 2 )` extraction yields `["A"]`
(the `;`-separated second clause on the same line is lost); with the
entries on separate lines it yields `["A", "B"]` in order; `const C = 3`
yields `["C"]`; and a `var` inside a function body (brace depth > 0) is not
extracted. -/
theorem c8_declaration_extraction :
    extractDeclarations "const ( A = 1; B = 2 )".data = some ([], ["A"], []) ∧
    extractDeclarations "const (\n A = 1\n B = 2\n)".data = some ([], ["A", "B"], []) ∧
    extractDeclarations "const C = 3".data = some ([], ["C"], []) ∧
    extractDeclarations "func f() { var x = 1 }".data = some ([], [], []) := by
  exact ⟨by decide, by decide, by decide, by decide⟩

/-- Depth values recorded by the declaration scanner are never negative:
`}` updates the counter with `max(depth - 1, 0)`. -/
theorem edGo_depths_nonneg :
    ∀ (fuel : Nat) (prev : Char) (d : Int) (l : List Char),
      0 ≤ d → ∀ x ∈ (edGo fuel prev d l).2, 0 ≤ x := by
  intro fuel
  induction fuel with
  | zero => intro prev d l hd x hx ; simp [edGo] at hx
  | succ n ih =>
    intro prev d l hd x hx
    cases l with
    | nil => simp [edGo] at hx
    | cons c rest =>
      simp only [edGo] at hx
      repeat' split at hx
      all_goals
        rcases List.mem_cons.mp hx with rfl | hx2 <;>
          first
            | omega
            | exact ih _ _ _ (by omega) _ hx2
            | simp at hx2

/-- Depth values recorded by the function scanner are never negative. -/
theorem pfGo_depths_nonneg :
    ∀ (fuel : Nat) (prev : Char) (d : Int) (src stp : List Char),
      0 ≤ d → ∀ x ∈ (pfGo fuel prev d src stp).2, 0 ≤ x := by
  intro fuel
  induction fuel with
  | zero => intro prev d src stp hd x hx ; simp [pfGo] at hx
  | succ n ih =>
    intro prev d src stp hd x hx
    cases stp with
    | nil => simp [pfGo] at hx
    | cons c stRest =>
      simp only [pfGo] at hx
      repeat' split at hx
      all_goals
        rcases List.mem_cons.mp hx with rfl | hx2 <;>
          first
            | omega
            | exact ih _ _ _ _ (by omega) _ hx2
            | simp at hx2

/-- C10: in both the declaration scan and the function scan the brace depth
is clamped with `max(depth - 1, 0)` at every unmatched `}`, so the tracked
depth is never negative at any scan position, and top-level declarations
and `func` signatures occurring after a stray closing brace are still
recognized at depth 0. -/
theorem c10_depth_clamped_nonnegative :
    (∀ l : List Char, ∀ x ∈ extractDeclarationsDepths l, 0 ≤ x) ∧
    (∀ src stp : List Char, ∀ x ∈ parseFunctionsDepths src stp, 0 ≤ x) ∧
    extractDeclarations "\x7d\ntype A int".data = some (["A"], [], []) ∧
    parseSourceFunctions "\x7d\nfunc F() {}".data =
      some [{ receiver := "", receiverType := none, name := "F", fullName := "F",
              params := "", returns := "", body := "{}" }] := by
  refine ⟨fun l => edGo_depths_nonneg (l.length + 1) ' ' 0 l (by omega),
    fun src stp => pfGo_depths_nonneg (stp.length + 1) ' ' 0 src stp (by omega),
    by decide, by decide⟩

/-- Witness for C10 at a concrete stray-brace input. -/
theorem c10_witness :
    (0 : Int) ∈ extractDeclarationsDepths "\x7dx".data ∧
    (0 : Int) ∈ parseFunctionsDepths "\x7dx".data "\x7dx".data ∧
    (0 : Int) ≤ 0 ∧ (0 : Int) ≤ 0 :=
  ⟨by decide, by decide,
    c10_depth_clamped_nonnegative.1 "\x7dx".data 0 (by decide),
    c10_depth_clamped_nonnegative.2.1 "\x7dx".data "\x7dx".data 0 (by decide)⟩

/-! ## Call scanning: `repository._find_simple_calls` /
`repository._find_selector_calls`

`CALL_PATTERN = \b([A-Za-z_][A-Za-z0-9_]*)\s*\(` and
`SELECTOR_CALL_PATTERN = \b([A-Za-z_][A-Za-z0-9_]*)\.([A-Za-z_][A-Za-z0-9_]*)\s*\(`
are applied with `finditer` over the masked body.  Each scan is embedded as
a deterministic character-at-a-time automaton that reproduces the regex
engine's left-to-right, non-overlapping matching (after a match, scanning
resumes after the `(`; after a failed partial match, at the next possible
`\b` position).  Word and space classes are the ASCII sets of the patterns. -/

def goKeywords : List String :=
  ["break", "case", "chan", "const", "continue", "default", "defer", "else",
   "fallthrough", "for", "func", "go", "goto", "if", "import", "interface",
   "map", "package", "range", "return", "select", "struct", "switch", "type", "var"]

def goBuiltins : List String :=
  ["append", "cap", "close", "complex", "copy", "delete", "imag", "len",
   "make", "new", "panic", "print", "println", "real", "recover"]

/-- `[A-Za-z_]` — identifier start of both call patterns. -/
def isReIdentStart (c : Char) : Bool :=
  ('a' ≤ c ∧ c ≤ 'z') ∨ ('A' ≤ c ∧ c ≤ 'Z') ∨ c = '_'

/-- States of the bare-call automaton: scanning (with previous character),
inside a candidate identifier, or in the `\s*` gap before a `(`. -/
inductive SMode where
  | scan (prev : Char)
  | ident (pre : Char) (acc : List Char)
  | post (pre : Char) (acc : List Char)
  deriving DecidableEq, Repr

/-- The "record a name" filter of `_find_simple_calls`: drop matches
preceded by `.` and keyword/builtin names. -/
def sEmit (pre : Char) (acc : List Char) : Option String :=
  if pre = '.' then none
  else if (⟨acc⟩ : String) ∈ goKeywords ∨ (⟨acc⟩ : String) ∈ goBuiltins then none
  else some ⟨acc⟩

def sStep : SMode → Char → SMode × Option String
  | .scan p, c =>
      if isReIdentStart c ∧ ¬ isAsciiIdent p then (.ident p [c], none)
      else (.scan c, none)
  | .ident p acc, c =>
      if isAsciiIdent c then (.ident p (acc ++ [c]), none)
      else if c = '(' then (.scan c, sEmit p acc)
      else if isPySpace c then (.post p acc, none)
      else (.scan c, none)
  | .post p acc, c =>
      if isPySpace c then (.post p acc, none)
      else if c = '(' then (.scan c, sEmit p acc)
      else if isReIdentStart c then (.ident ' ' [c], none)
      else (.scan c, none)

def findSimpleCallsGo : SMode → List Char → List String
  | _, [] => []
  | m, c :: rest =>
      match sStep m c with
      | (m', some n) => n :: findSimpleCallsGo m' rest
      | (m', none) => findSimpleCallsGo m' rest

/-- `repository._find_simple_calls` (as the list of recorded names; the
Python `set` only deduplicates, which does not affect membership). -/
def findSimpleCalls (body : List Char) : List String :=
  findSimpleCallsGo (.scan ' ') body

example : findSimpleCalls "x := Foo() + bar.Baz(1)".data = ["Foo"] := by decide
example : findSimpleCalls "if len(a) > 0 { helper (x) }".data = ["helper"] := by decide
example : findSimpleCalls "go f()".data = ["f"] := by decide

/-- States of the selector-call automaton. -/
inductive TMode where
  | scan (prev : Char)
  | id1 (acc : List Char)
  | dot (acc : List Char)
  | id2 (a1 : List Char) (acc : List Char)
  | post2 (a1 : List Char) (acc : List Char)
  deriving DecidableEq, Repr

/-- Selector-call recording: look the alias up in the file's alias map and
record `(import path, called name)`; unknown aliases record nothing. -/
def tEmit (am : List (String × String)) (a1 acc : List Char) : Option (String × String) :=
  match am.lookup (⟨a1⟩ : String) with
  | some path => some (path, ⟨acc⟩)
  | none => none

def tStep (am : List (String × String)) : TMode → Char → TMode × Option (String × String)
  | .scan p, c =>
      if isReIdentStart c ∧ ¬ isAsciiIdent p then (.id1 [c], none)
      else (.scan c, none)
  | .id1 acc, c =>
      if isAsciiIdent c then (.id1 (acc ++ [c]), none)
      else if c = '.' then (.dot acc, none)
      else (.scan c, none)
  | .dot acc, c =>
      if isReIdentStart c then (.id2 acc [c], none)
      else (.scan c, none)
  | .id2 a1 acc, c =>
      if isAsciiIdent c then (.id2 a1 (acc ++ [c]), none)
      else if c = '.' then (.dot acc, none)
      else if c = '(' then (.scan c, tEmit am a1 acc)
      else if isPySpace c then (.post2 a1 acc, none)
      else (.scan c, none)
  | .post2 a1 acc, c =>
      if isPySpace c then (.post2 a1 acc, none)
      else if c = '(' then (.scan c, tEmit am a1 acc)
      else if isReIdentStart c then (.id1 [c], none)
      else (.scan c, none)

def findSelectorCallsGo (am : List (String × String)) :
    TMode → List Char → List (String × String)
  | _, [] => []
  | m, c :: rest =>
      match tStep am m c with
      | (m', some pn) => pn :: findSelectorCallsGo am m' rest
      | (m', none) => findSelectorCallsGo am m' rest

/-- `repository._find_selector_calls` (membership model of the Python set). -/
def findSelectorCalls (body : List Char) (am : List (String × String)) :
    List (String × String) :=
  findSelectorCallsGo am (.scan ' ') body

example :
    findSelectorCalls "pkg.Helper() + other.F(x)".data [("pkg", "mod/sub")] =
      [("mod/sub", "Helper")] := by decide
example :
    findSelectorCalls "a.b.c(1)".data [("a", "pa"), ("b", "pb")] = [("pb", "c")] := by
  decide

/-! ## Repository index: `repository.build_repository_index`

An indexed function record: the parsed fields plus the location fields the
indexer attaches (`file_path`, `dir_path`, `import_path`, `rel_path`).
Path arithmetic (`_compute_import_path`, `_compute_relative_path`,
`_iter_go_files`) is filesystem work and is abstracted: each input file
carries its directory, import path, relative path and alias map as data
(the alias map is what `_build_alias_maps` produces for the file).  The
lookup dictionaries that the indexer fills by appending while iterating
over files/functions are embedded as order-preserving filters over the full
function list, which yields exactly the same lists. -/

structure GoFn where
  filePath : String
  dirPath : String
  name : String
  receiverType : Option String
  importPath : Option String
  relPath : Option String
  body : String
  deriving DecidableEq, Repr

/-- `_make_function_key` applied to an indexed function. -/
def fnKey (f : GoFn) : FKey := makeFunctionKey f.filePath f.name f.receiverType

structure RepoIndex where
  modulePath : Option String
  functions : List GoFn
  aliasMaps : List (String × List (String × String))
  deriving DecidableEq, Repr

/-- `functions_by_dir_name[(dir, name)]`. -/
def functionsByDirName (idx : RepoIndex) (dir name : String) : List GoFn :=
  idx.functions.filter (fun g => g.dirPath = dir ∧ g.name = name)

/-- `functions_by_import_path_name[(path, name)]` — only receiverless
functions of files with an import path are registered. -/
def functionsByImportPathName (idx : RepoIndex) (p name : String) : List GoFn :=
  idx.functions.filter
    (fun g => g.receiverType = none ∧ g.importPath = some p ∧ g.name = name)

/-- `functions_by_rel_path_name[(rel, name)]` (methods included). -/
def functionsByRelPathName (idx : RepoIndex) (rp name : String) : List GoFn :=
  idx.functions.filter (fun g => g.relPath = some rp ∧ g.name = name)

/-- `rel_paths_present`. -/
def relPathsPresent (idx : RepoIndex) : List String :=
  idx.functions.filterMap (·.relPath)

/-- `file_alias_maps.get(path, {})["alias_map"]`. -/
def aliasMapOf (idx : RepoIndex) (file : String) : List (String × String) :=
  (idx.aliasMaps.lookup file).getD []

/-- Python `str.split(sep)` for a one-character separator (`cur` is the
current piece, reversed). -/
def splitOnCharGo (sep : Char) (cur : List Char) : List Char → List (List Char)
  | [] => [cur.reverse]
  | c :: rest =>
      if c = sep then cur.reverse :: splitOnCharGo sep [] rest
      else splitOnCharGo sep (c :: cur) rest

def splitOnChar (sep : Char) (l : List Char) : List (List Char) :=
  splitOnCharGo sep [] l

/-- `repository._match_import_to_rel_paths`: candidates are every
`/`-suffix of the import path (the whole path included) plus, when a
non-empty module path prefixes it, its module-relative remainder; the
result keeps the candidates present among known relative paths. -/
def matchImportToRelPaths (importPath : String) (present : List String)
    (modulePath : Option String) : List String :=
  if importPath = "" then []
  else
    let segments := splitOnChar '/' importPath.data
    let suffixCands :=
      (List.range segments.length).map
        (fun i => (⟨List.intercalate ['/'] (segments.drop i)⟩ : String))
    let modCands :=
      match modulePath with
      | some mp =>
          if mp = "" then []
          else if (mp.data ++ ['/']).isPrefixOf importPath.data then
            [(⟨importPath.data.drop (mp.data.length + 1)⟩ : String)]
          else []
      | none => []
    (suffixCands ++ modCands).filter (fun c => c ∈ present)

example :
    matchImportToRelPaths "mod/a/b" ["a/b", "b", "x"] (some "mod") =
      ["a/b", "b", "a/b"] := by decide

/-- The masking pipeline applied to a function body before call scanning
(comment mask, then literal mask). -/
def sanitizeBody (body : String) : List Char :=
  maskStringLiterals (stripCommentsPreserveWhitespace body.data)

def keysOf (l : List GoFn) : List FKey := l.map fnKey

/-- Targets contributed by one selector call `(path, name)` in
`_build_call_graph`: the `(import-path, name)` registrations plus, for
every matching relative path, the `(rel-path, name)` registrations. -/
def selResolveKeys (idx : RepoIndex) (p n : String) : List FKey :=
  keysOf (functionsByImportPathName idx p n) ++
    (matchImportToRelPaths p (relPathsPresent idx) idx.modulePath).foldr
      (fun rp acc => keysOf (functionsByRelPathName idx rp n) ++ acc) []

/-- Callee-key set of one caller in `_build_call_graph` (the Python code
accumulates into a per-caller `set`; the `Finset` is that set). -/
def calleesOf (idx : RepoIndex) (f : GoFn) : Finset FKey :=
  let sanitized := sanitizeBody f.body
  let fromSimple :=
    (findSimpleCalls sanitized).foldr
      (fun n acc => (keysOf (functionsByDirName idx f.dirPath n)).toFinset ∪ acc) ∅
  let fromSel :=
    (findSelectorCalls sanitized (aliasMapOf idx f.filePath)).foldr
      (fun pn acc => (selResolveKeys idx pn.1 pn.2).toFinset ∪ acc) ∅
  fromSimple ∪ fromSel

/-- `call_edges[k]`: the merged callee sets of every indexed function whose
identity key is `k` (a `defaultdict(set)` merges colliding keys). -/
def callEdgesFn (idx : RepoIndex) (k : FKey) : Finset FKey :=
  idx.functions.foldr
    (fun f acc => if fnKey f = k then calleesOf idx f ∪ acc else acc) ∅

/-- `repository._invert_call_graph` over the dict items. -/
def invertCallGraph (edges : List (FKey × Finset FKey)) : FKey → Finset FKey :=
  fun b =>
    edges.foldr (fun e acc => if b ∈ e.2 then insert e.1 acc else acc) ∅

/-- The forward dict as an item list (one entry per distinct caller key). -/
def callEdgesList (idx : RepoIndex) : List (FKey × Finset FKey) :=
  ((idx.functions.map fnKey).dedup).map (fun k => (k, callEdgesFn idx k))

/-- `reverse_edges`. -/
def reverseEdgesFn (idx : RepoIndex) : FKey → Finset FKey :=
  invertCallGraph (callEdgesList idx)

/-! ### Building the index from files -/

/-- One input file of `build_repository_index`, with the filesystem-derived
attributes as data. -/
structure SrcFile where
  path : String
  dir : String
  importPath : Option String
  relPath : Option String
  aliasMap : List (String × String)
  source : String
  deriving DecidableEq, Repr

/-- The indexed functions of one file: `parse_functions` output with the
location fields attached, or `none` when parsing raised. -/
def fileFns (sf : SrcFile) : Option (List GoFn) :=
  (parseSourceFunctions sf.source.data).map (fun infos =>
    infos.map (fun fi =>
      { filePath := sf.path, dirPath := sf.dir, name := fi.name,
        receiverType := fi.receiverType, importPath := sf.importPath,
        relPath := sf.relPath, body := fi.body }))

/-- `build_repository_index`: the index plus the list of per-file skip
warnings (one `logging.warning` per file whose extraction raised). -/
def buildRepositoryIndex (modulePath : Option String) (files : List SrcFile) :
    RepoIndex × List String :=
  ({ modulePath := modulePath,
     functions := files.foldr (fun sf acc => (fileFns sf).getD [] ++ acc) [],
     aliasMaps := files.map (fun sf => (sf.path, sf.aliasMap)) },
   (files.filter (fun sf => (fileFns sf).isNone)).map (·.path))

/-- `functions_by_file[path]`. -/
def functionsByFile (idx : RepoIndex) (path : String) : List GoFn :=
  idx.functions.filter (fun g => g.filePath = path)

/-- The direct-request path of `generator._prepare_render_inputs`: use the
index's functions for the file when there are any, else parse the file
directly — and let the parse error propagate. -/
inductive RenderFuncs where
  | fromIndex (fns : List GoFn)
  | parsed (fns : List FuncInfo)
  deriving DecidableEq, Repr

def prepareRenderFuncs (indexFuncs : List GoFn) (source : String) :
    Except String RenderFuncs :=
  if indexFuncs.isEmpty then
    match parseSourceFunctions source.data with
    | some fs => .ok (.parsed fs)
    | none => .error "malformed function signature"
  else .ok (.fromIndex indexFuncs)

theorem mem_invertCallGraph (edges : List (FKey × Finset FKey)) (b a : FKey) :
    a ∈ invertCallGraph edges b ↔ ∃ cs, (a, cs) ∈ edges ∧ b ∈ cs := by
  induction edges with
  | nil => simp [invertCallGraph]
  | cons e es ih =>
    simp only [invertCallGraph, List.foldr_cons]
    simp only [invertCallGraph] at ih
    by_cases hb : b ∈ e.2
    · rw [if_pos hb]
      simp only [Finset.mem_insert, List.mem_cons]
      constructor
      · rintro (rfl | h)
        · exact ⟨e.2, Or.inl rfl, hb⟩
        · obtain ⟨cs, h1, h2⟩ := ih.mp h
          exact ⟨cs, Or.inr h1, h2⟩
      · rintro ⟨cs, h1 | h1, h2⟩
        · cases h1
          exact Or.inl rfl
        · exact Or.inr (ih.mpr ⟨cs, h1, h2⟩)
    · rw [if_neg hb]
      simp only [List.mem_cons]
      constructor
      · intro h
        obtain ⟨cs, h1, h2⟩ := ih.mp h
        exact ⟨cs, Or.inr h1, h2⟩
      · rintro ⟨cs, h1 | h1, h2⟩
        · cases h1
          exact absurd h2 hb
        · exact ih.mpr ⟨cs, h1, h2⟩

theorem mem_callEdgesFoldr (idx : RepoIndex) (fns : List GoFn) (k b : FKey) :
    b ∈ fns.foldr
        (fun f acc => if fnKey f = k then calleesOf idx f ∪ acc else acc) ∅ ↔
      ∃ f ∈ fns, fnKey f = k ∧ b ∈ calleesOf idx f := by
  induction fns with
  | nil => simp
  | cons f fs ih =>
    simp only [List.foldr_cons]
    by_cases hf : fnKey f = k
    · rw [if_pos hf]
      simp only [Finset.mem_union, ih]
      constructor
      · rintro (h | ⟨g, h1, h2, h3⟩)
        · exact ⟨f, List.mem_cons_self f fs, hf, h⟩
        · exact ⟨g, List.mem_cons_of_mem f h1, h2, h3⟩
      · rintro ⟨g, h1, h2, h3⟩
        rcases List.mem_cons.mp h1 with rfl | h1
        · exact Or.inl h3
        · exact Or.inr ⟨g, h1, h2, h3⟩
    · rw [if_neg hf]
      rw [ih]
      constructor
      · rintro ⟨g, h1, h2, h3⟩
        exact ⟨g, List.mem_cons_of_mem f h1, h2, h3⟩
      · rintro ⟨g, h1, h2, h3⟩
        rcases List.mem_cons.mp h1 with rfl | h1
        · exact absurd h2 hf
        · exact ⟨g, h1, h2, h3⟩

theorem mem_callEdgesFn (idx : RepoIndex) (k b : FKey) :
    b ∈ callEdgesFn idx k ↔
      ∃ f ∈ idx.functions, fnKey f = k ∧ b ∈ calleesOf idx f :=
  mem_callEdgesFoldr idx idx.functions k b

theorem callEdgesFn_mem_keys (idx : RepoIndex) (k b : FKey)
    (h : b ∈ callEdgesFn idx k) : k ∈ idx.functions.map fnKey := by
  obtain ⟨f, h1, h2, _⟩ := (mem_callEdgesFn idx k b).mp h
  exact List.mem_map.mpr ⟨f, h1, h2⟩

theorem mem_callEdgesList (idx : RepoIndex) (a : FKey) (cs : Finset FKey) :
    (a, cs) ∈ callEdgesList idx ↔
      a ∈ (idx.functions.map fnKey).dedup ∧ cs = callEdgesFn idx a := by
  constructor
  · intro h
    obtain ⟨k, hk, heq⟩ := List.mem_map.mp h
    cases heq
    exact ⟨hk, rfl⟩
  · rintro ⟨h1, rfl⟩
    exact List.mem_map.mpr ⟨a, h1, rfl⟩

/-- C7: the reverse edge map is the exact transpose of the forward map —
for an arbitrary forward dict, membership in the inverted map is exactly a
forward edge; and for the repository's own graph, `A ∈ reverse[B]` holds
iff `B ∈ forward[A]`, in both directions (no spurious reverse entries).
Per-caller deduplication holds by construction: the per-caller edge
collection is a `Finset`, the embedding of the Python `set`. -/
theorem c7_reverse_edges_exact_transpose :
    (∀ (edges : List (FKey × Finset FKey)) (b a : FKey),
        a ∈ invertCallGraph edges b ↔ ∃ cs, (a, cs) ∈ edges ∧ b ∈ cs) ∧
    (∀ (idx : RepoIndex) (b a : FKey),
        a ∈ reverseEdgesFn idx b ↔ b ∈ callEdgesFn idx a) := by
  refine ⟨mem_invertCallGraph, fun idx b a => ?_⟩
  rw [reverseEdgesFn, mem_invertCallGraph]
  constructor
  · rintro ⟨cs, h1, h2⟩
    obtain ⟨-, rfl⟩ := (mem_callEdgesList idx a cs).mp h1
    exact h2
  · intro h
    refine ⟨callEdgesFn idx a, (mem_callEdgesList idx a _).mpr ⟨?_, rfl⟩, h⟩
    exact List.mem_dedup.mpr (callEdgesFn_mem_keys idx a b h)

theorem fileFns_paths (sf : SrcFile) (g : GoFn) (h : g ∈ (fileFns sf).getD []) :
    g.filePath = sf.path := by
  unfold fileFns at h
  cases hp : parseSourceFunctions sf.source.data with
  | none => rw [hp] at h ; exact absurd h (List.not_mem_nil g)
  | some infos =>
    rw [hp] at h
    obtain ⟨fi, _, rfl⟩ := List.mem_map.mp h
    rfl

theorem build_functions_paths (mp : Option String) :
    ∀ (files : List SrcFile) (g : GoFn),
      g ∈ (buildRepositoryIndex mp files).1.functions → g.filePath ∈ files.map SrcFile.path := by
  intro files
  induction files with
  | nil => intro g h ; simp [buildRepositoryIndex] at h
  | cons f fs ih =>
    intro g h
    simp only [buildRepositoryIndex, List.foldr_cons] at h
    rcases List.mem_append.mp h with h | h
    · rw [List.map_cons, fileFns_paths f g h]
      exact List.mem_cons_self _ _
    · exact List.mem_cons_of_mem _ (ih g h)

theorem functionsByFile_build (mp : Option String) :
    ∀ (files : List SrcFile), (files.map SrcFile.path).Nodup →
      ∀ sf ∈ files,
        functionsByFile (buildRepositoryIndex mp files).1 sf.path = (fileFns sf).getD [] := by
  intro files
  induction files with
  | nil => intro _ sf h ; simp at h
  | cons f fs ih =>
    intro hnd sf hsf
    have hnd2 := List.nodup_cons.mp (show (f.path :: fs.map SrcFile.path).Nodup from hnd)
    have hsplit :
        functionsByFile (buildRepositoryIndex mp (f :: fs)).1 sf.path =
          ((fileFns f).getD []).filter (fun g => g.filePath = sf.path) ++
            functionsByFile (buildRepositoryIndex mp fs).1 sf.path := by
      simp [functionsByFile, buildRepositoryIndex, List.filter_append]
    rcases List.mem_cons.mp hsf with rfl | hsf2
    · rw [hsplit]
      have h1 : ((fileFns sf).getD []).filter (fun g => g.filePath = sf.path) =
          (fileFns sf).getD [] := by
        apply List.filter_eq_self.mpr
        intro g hg
        simpa using fileFns_paths sf g hg
      have h2 : functionsByFile (buildRepositoryIndex mp fs).1 sf.path = [] := by
        apply List.filter_eq_nil_iff.mpr
        intro g hg
        have := build_functions_paths mp fs g hg
        simp only [decide_eq_true_eq]
        intro he
        exact hnd2.1 (by rw [← he] ; exact this)
      rw [h1, h2, List.append_nil]
    · rw [hsplit]
      have h1 : ((fileFns f).getD []).filter (fun g => g.filePath = sf.path) = [] := by
        apply List.filter_eq_nil_iff.mpr
        intro g hg
        have hp := fileFns_paths f g hg
        simp only [decide_eq_true_eq]
        intro he
        exact hnd2.1 (by rw [← hp, he] ; exact List.mem_map.mpr ⟨sf, hsf2, rfl⟩)
      rw [h1, List.nil_append]
      exact ih hnd2.2 sf hsf2

/-- C6: during an index build, a file whose function extraction raises is
skipped with exactly one warning and contributes nothing to the function
list or the per-file listings; every file's per-file listing is exactly its
own successful parse (so siblings still index); and a direct request for
the failing file propagates the parse failure as a hard error. -/
theorem c6_parse_failure_skips_file :
    ∀ (mp : Option String) (files : List SrcFile) (bad : SrcFile),
      (files.map SrcFile.path).Nodup →
      bad ∈ files →
      parseSourceFunctions bad.source.data = none →
      (buildRepositoryIndex mp files).2.count bad.path = 1 ∧
      functionsByFile (buildRepositoryIndex mp files).1 bad.path = [] ∧
      (∀ g ∈ (buildRepositoryIndex mp files).1.functions, g.filePath ≠ bad.path) ∧
      (∀ sf ∈ files,
        functionsByFile (buildRepositoryIndex mp files).1 sf.path = (fileFns sf).getD []) ∧
      prepareRenderFuncs (functionsByFile (buildRepositoryIndex mp files).1 bad.path)
          bad.source = .error "malformed function signature" := by
  intro mp files bad hnd hmem hfail
  have hbadfns : fileFns bad = none := by simp [fileFns, hfail]
  have hby : functionsByFile (buildRepositoryIndex mp files).1 bad.path = [] := by
    rw [functionsByFile_build mp files hnd bad hmem, hbadfns]
    rfl
  refine ⟨?_, hby, ?_, functionsByFile_build mp files hnd, ?_⟩
  · have hsub :
        ((files.filter (fun sf => (fileFns sf).isNone)).map SrcFile.path).Sublist
          (files.map SrcFile.path) :=
      (List.filter_sublist files).map SrcFile.path
    have hnd2 := hnd.sublist hsub
    have hmem2 : bad.path ∈ (files.filter (fun sf => (fileFns sf).isNone)).map SrcFile.path :=
      List.mem_map.mpr ⟨bad, List.mem_filter.mpr ⟨hmem, by simp [hbadfns]⟩, rfl⟩
    exact List.count_eq_one_of_mem hnd2 hmem2
  · intro g hg hpath
    have : g ∈ functionsByFile (buildRepositoryIndex mp files).1 bad.path :=
      List.mem_filter.mpr ⟨hg, by simp [hpath]⟩
    rw [hby] at this
    exact absurd this (List.not_mem_nil g)
  · rw [hby]
    simp [prepareRenderFuncs, hfail]

/-- A file with an unterminated bracket. -/
def badFileEx : SrcFile :=
  { path := "a.go", dir := "d", importPath := some "mod/d", relPath := some "d",
    aliasMap := [], source := "func F(" }

/-- A sibling file that parses. -/
def goodFileEx : SrcFile :=
  { path := "b.go", dir := "d", importPath := some "mod/d", relPath := some "d",
    aliasMap := [], source := "func G() {}" }

/-- Witness for C6 at the unterminated-bracket example. -/
theorem c6_witness :
    (buildRepositoryIndex (some "mod") [badFileEx, goodFileEx]).2.count "a.go" = 1 ∧
    functionsByFile (buildRepositoryIndex (some "mod") [badFileEx, goodFileEx]).1 "a.go" =
      [] ∧
    prepareRenderFuncs
        (functionsByFile (buildRepositoryIndex (some "mod") [badFileEx, goodFileEx]).1
          "a.go") badFileEx.source = .error "malformed function signature" := by
  have h := c6_parse_failure_skips_file (some "mod") [badFileEx, goodFileEx] badFileEx
    (by decide) (by decide) (by decide)
  exact ⟨h.1, h.2.1, h.2.2.2.2⟩

/-! ## Relationship summaries: `repository._summarize_relations` /
`repository._sorted_unique`

`_sorted_unique` is `sorted(set(items), key=str.lower)`: exact
deduplication followed by a sort keyed on the lowercased string.  The
embedding deduplicates with `List.dedup` and sorts with a stable insertion
sort under the boolean lexicographic order on lowercased text; the
iteration order of the Python `set` (and hence the relative order of
strings whose lowercasings tie) is interpreter-dependent, so theorems below
only state order-insensitive facts plus sortedness of the result. -/

/-- Boolean lexicographic comparison of character lists (code-point order,
as Python compares strings). -/
def listLeb : List Char → List Char → Bool
  | [], _ => true
  | _ :: _, [] => false
  | a :: as, b :: bs => if a = b then listLeb as bs else decide (a < b)

/-- Python `str.lower()` (ASCII model). -/
def lowerStr (s : String) : String := ⟨s.data.map Char.toLower⟩

/-- The sort key comparison `key=str.lower`. -/
def lowerLeb (a b : String) : Bool := listLeb (lowerStr a).data (lowerStr b).data

theorem listLeb_total (a b : List Char) : listLeb a b = true ∨ listLeb b a = true := by
  induction a generalizing b with
  | nil => left ; rfl
  | cons x as ih =>
    cases b with
    | nil => right ; rfl
    | cons y bs =>
      by_cases hxy : x = y
      · subst hxy
        simp only [listLeb, if_pos rfl]
        exact ih bs
      · rcases lt_trichotomy x y with h | h | h
        · left ; simp [listLeb, hxy, h]
        · exact absurd h hxy
        · right ; simp [listLeb, Ne.symm hxy, h]

theorem listLeb_trans (a b c : List Char) (h1 : listLeb a b = true)
    (h2 : listLeb b c = true) : listLeb a c = true := by
  induction a generalizing b c with
  | nil => rfl
  | cons x as ih =>
    cases b with
    | nil => simp [listLeb] at h1
    | cons y bs =>
      cases c with
      | nil => simp [listLeb] at h2
      | cons z cs =>
        simp only [listLeb] at h1 h2 ⊢
        by_cases hxy : x = y
        · subst hxy
          rw [if_pos rfl] at h1
          by_cases hyz : x = z
          · subst hyz
            rw [if_pos rfl] at h2
            rw [if_pos rfl]
            exact ih bs cs h1 h2
          · rw [if_neg hyz] at h2
            rw [if_neg hyz]
            exact h2
        · rw [if_neg hxy] at h1
          by_cases hyz : y = z
          · subst hyz
            rw [if_neg hxy]
            exact h1
          · rw [if_neg hyz] at h2
            have hlt := lt_trans (of_decide_eq_true h1) (of_decide_eq_true h2)
            have hne : x ≠ z := ne_of_lt hlt
            rw [if_neg hne]
            exact decide_eq_true hlt

/-- `repository._sorted_unique`. -/
def sortedUnique (items : List String) : List String :=
  (items.dedup).insertionSort (fun a b => lowerLeb a b = true)

/-- `", ".join(...)`. -/
def commaJoin (xs : List String) : String :=
  ⟨List.intercalate ", ".data (xs.map String.data)⟩

/-- `"; ".join(...)`. -/
def semiJoin (xs : List String) : String :=
  ⟨List.intercalate "; ".data (xs.map String.data)⟩

/-- `repository._summarize_relations`. -/
def summarizeRelations (calls callers : List String) : String :=
  let uc := sortedUnique calls
  let ur := sortedUnique callers
  let parts :=
    (if uc = [] then [] else ["вызывает: " ++ commaJoin uc]) ++
      (if ur = [] then [] else ["вызывается: " ++ commaJoin ur])
  if parts = [] then "—" else semiJoin parts

example : summarizeRelations ["g", "F"] [] = "вызывает: F, g" := by decide
example : summarizeRelations [] [] = "—" := by decide
example : summarizeRelations ["g"] ["H"] = "вызывает: g; вызывается: H" := by decide

/-- Modelled from the spec wording of the summary claim: deduplicate each
side case-insensitively (keeping the first representative) and sort
lexicographically, for comparison with the code's `_sorted_unique`. -/
def ciDedup : List String → List String
  | [] => []
  | x :: rest => x :: (ciDedup rest).filter (fun y => !(lowerStr y == lowerStr x))

/-- Modelled from the spec wording: the summary as the claim describes it
(case-insensitive dedup, plain lexicographic sort); only used to exhibit
the divergence from `summarizeRelations`. -/
def specSummarizeRelations (calls callers : List String) : String :=
  let uc := (ciDedup calls).insertionSort (fun a b => listLeb a.data b.data = true)
  let ur := (ciDedup callers).insertionSort (fun a b => listLeb a.data b.data = true)
  let parts :=
    (if uc = [] then [] else ["вызывает: " ++ commaJoin uc]) ++
      (if ur = [] then [] else ["вызывается: " ++ commaJoin ur])
  if parts = [] then "—" else semiJoin parts

/-- C9 counterexample: the sides are *not* deduplicated case-insensitively —
`_sorted_unique` uses `set(items)`, which is exact (case-sensitive)
deduplication, so `B` and `b` both survive, unlike the claim's described
behaviour. -/
theorem c9_counterexample :
    specSummarizeRelations ["B", "b"] [] ≠ summarizeRelations ["B", "b"] [] := by
  decide

theorem sortedUnique_sorted (l : List String) :
    List.Sorted (fun a b : String => lowerLeb a b = true) (sortedUnique l) := by
  haveI : IsTotal String (fun a b : String => lowerLeb a b = true) :=
    ⟨fun a b => listLeb_total (lowerStr a).data (lowerStr b).data⟩
  haveI : IsTrans String (fun a b : String => lowerLeb a b = true) :=
    ⟨fun a b c => listLeb_trans (lowerStr a).data (lowerStr b).data (lowerStr c).data⟩
  exact List.sorted_insertionSort _ _

theorem sortedUnique_nodup (l : List String) : (sortedUnique l).Nodup :=
  ((List.perm_insertionSort _ _).nodup_iff).mpr (List.nodup_dedup l)

theorem mem_sortedUnique (l : List String) (x : String) :
    x ∈ sortedUnique l ↔ x ∈ l :=
  ((List.perm_insertionSort _ _).mem_iff).trans (List.mem_dedup)

theorem sortedUnique_ne_nil (l : List String) (h : l ≠ []) : sortedUnique l ≠ [] := by
  cases l with
  | nil => exact absurd rfl h
  | cons c cs =>
    exact List.ne_nil_of_mem ((mem_sortedUnique (c :: cs) c).mpr (List.mem_cons_self c cs))

theorem semiJoin_pair (a b : String) : semiJoin [a, b] = a ++ "; " ++ b := by
  apply String.ext
  simp [semiJoin, List.intercalate, String.data_append]

theorem semiJoin_single (a : String) : semiJoin [a] = a := by
  apply String.ext
  simp [semiJoin, List.intercalate]

/-- C9 (amended): each side is deduplicated *exactly* and sorted by the
lowercased key; the summary lists the calls side first, then the called-by
side, joined with `"; "`, and the empty summary is the sentinel `—`. -/
theorem c9_summary_structure :
    (∀ l : List String,
        List.Sorted (fun a b : String => lowerLeb a b = true) (sortedUnique l)) ∧
    (∀ l : List String, (sortedUnique l).Nodup) ∧
    (∀ (l : List String) (x : String), x ∈ sortedUnique l ↔ x ∈ l) ∧
    summarizeRelations [] [] = "—" ∧
    (∀ calls callers : List String, calls ≠ [] → callers ≠ [] →
        summarizeRelations calls callers =
          "вызывает: " ++ commaJoin (sortedUnique calls) ++ "; " ++
            ("вызывается: " ++ commaJoin (sortedUnique callers))) ∧
    (∀ calls : List String, calls ≠ [] →
        summarizeRelations calls [] = "вызывает: " ++ commaJoin (sortedUnique calls)) ∧
    (∀ callers : List String, callers ≠ [] →
        summarizeRelations [] callers =
          "вызывается: " ++ commaJoin (sortedUnique callers)) := by
  refine ⟨sortedUnique_sorted, sortedUnique_nodup, mem_sortedUnique, by decide, ?_, ?_, ?_⟩
  · intro calls callers h1 h2
    have hu := sortedUnique_ne_nil calls h1
    have hr := sortedUnique_ne_nil callers h2
    simp only [summarizeRelations, if_neg hu, if_neg hr]
    rw [if_neg (by simp), List.singleton_append]
    exact semiJoin_pair _ _
  · intro calls h1
    have hu := sortedUnique_ne_nil calls h1
    simp only [summarizeRelations, if_neg hu, if_pos rfl, List.append_nil]
    rw [if_neg (by simp)]
    exact semiJoin_single _
  · intro callers h2
    have hr := sortedUnique_ne_nil callers h2
    simp only [summarizeRelations, if_neg hr, if_pos rfl, List.nil_append]
    rw [if_neg (by simp)]
    exact semiJoin_single _

/-- Witness for C9 at concrete call/caller lists. -/
theorem c9_witness :
    summarizeRelations ["g", "F", "g"] ["H"] =
      "вызывает: " ++ commaJoin (sortedUnique ["g", "F", "g"]) ++ "; " ++
        ("вызывается: " ++ commaJoin (sortedUnique ["H"])) :=
  c9_summary_structure.2.2.2.2.1 ["g", "F", "g"] ["H"] (by decide) (by decide)

/-! ## C1: bare-call resolution

`BareCallAt` is the claim's syntactic description of a bare call: an
identifier immediately followed by `(`, at a word boundary, not preceded by
`.`, and neither a keyword nor a builtin.  The completeness lemmas show the
`CALL_PATTERN` scanner records every such occurrence; the resolution lemmas
show each recorded name produces edges to every same-directory, same-name
indexed function. -/

/-- The claim's notion of "identifier": `[A-Za-z_][A-Za-z0-9_]*`. -/
def isIdentToken (name : List Char) : Bool :=
  match name with
  | [] => false
  | c :: rest => isReIdentStart c && rest.all isAsciiIdent

/-- Modelled from the claim wording: the masked body contains a bare call
`name(` — identifier immediately followed by `(`, at a word boundary, not
preceded by `.`, not a keyword or builtin. -/
def BareCallAt (body : List Char) (name : String) : Prop :=
  ∃ pre post,
    body = pre ++ name.data ++ '(' :: post ∧
    isIdentToken name.data = true ∧
    (pre = [] ∨ ∃ z, pre.getLast? = some z ∧ isAsciiIdent z = false ∧ z ≠ '.') ∧
    name ∉ goKeywords ∧ name ∉ goBuiltins

theorem identStart_isWord (c : Char) (h : isReIdentStart c = true) :
    isAsciiIdent c = true := by
  simp only [isReIdentStart, Bool.or_eq_true, decide_eq_true_eq] at h
  simp only [isAsciiIdent, Bool.or_eq_true, decide_eq_true_eq]
  tauto

theorem identStart_not_space (c : Char) (h : isReIdentStart c = true) :
    isPySpace c = false := by
  cases hps : isPySpace c with
  | false => rfl
  | true =>
    exfalso
    simp only [isReIdentStart, Bool.or_eq_true, decide_eq_true_eq] at h
    simp only [isPySpace, Bool.or_eq_true, decide_eq_true_eq] at hps
    rcases hps with rfl | rfl | rfl | rfl | rfl | rfl <;> revert h <;> decide

/-- Folding the scanner's single step over a consumed prefix. -/
def sStepAll (m : SMode) (pre : List Char) : SMode :=
  pre.foldl (fun m c => (sStep m c).1) m

theorem sStepAll_append (m : SMode) (pre : List Char) (z : Char) :
    sStepAll m (pre ++ [z]) = (sStep (sStepAll m pre) z).1 := by
  simp [sStepAll, List.foldl_append]

theorem sStep_scan_prev (m : SMode) (c p : Char) (h : (sStep m c).1 = .scan p) :
    p = c := by
  cases m <;> simp only [sStep] at h <;> (repeat' split at h) <;>
    first
      | (simp_all ; done)
      | exact (SMode.scan.injEq .. ▸ h).symm

theorem sStep_ident_word (m : SMode) (c : Char) (p : Char) (acc : List Char)
    (h : (sStep m c).1 = .ident p acc) : isAsciiIdent c = true := by
  cases m <;> simp only [sStep] at h <;> (repeat' split at h) <;>
    first
      | exact SMode.noConfusion h
      | (rename_i hcond ; exact identStart_isWord c hcond.1)
      | (rename_i h1 h2 h3 hcond ; exact identStart_isWord c hcond)
      | (rename_i hcond ; exact hcond)

theorem sStep_post_space (m : SMode) (c : Char) (p : Char) (acc : List Char)
    (h : (sStep m c).1 = .post p acc) : isPySpace c = true := by
  cases m <;> simp only [sStep] at h <;> (repeat' split at h) <;>
    first
      | exact SMode.noConfusion h
      | (rename_i hcond ; exact hcond)

/-- Monotonicity: anything found from the post-step state is found from the
pre-step state. -/
theorem findSimpleCallsGo_step (m : SMode) (c : Char) (rest : List Char) (x : String)
    (h : x ∈ findSimpleCallsGo (sStep m c).1 rest) :
    x ∈ findSimpleCallsGo m (c :: rest) := by
  simp only [findSimpleCallsGo]
  cases he : sStep m c with
  | mk m' e =>
    rw [he] at h
    cases e with
    | none => exact h
    | some n => exact List.mem_cons_of_mem n h

theorem findSimpleCallsGo_march (pre : List Char) :
    ∀ (m : SMode) (suffix : List Char) (x : String),
      x ∈ findSimpleCallsGo (sStepAll m pre) suffix →
      x ∈ findSimpleCallsGo m (pre ++ suffix) := by
  induction pre with
  | nil => intro m suffix x h ; exact h
  | cons c pre' ih =>
    intro m suffix x h
    have hs : sStepAll m (c :: pre') = sStepAll ((sStep m c).1) pre' := by
      simp [sStepAll]
    rw [hs] at h
    exact findSimpleCallsGo_step m c (pre' ++ suffix) x (ih ((sStep m c).1) suffix x h)

theorem sEmit_of_checks (p : Char) (name : String) (hp : p ≠ '.')
    (hkw : name ∉ goKeywords) (hbi : name ∉ goBuiltins) :
    sEmit p name.data = some name := by
  simp only [sEmit, if_neg hp]
  rw [if_neg (not_or.mpr ⟨hkw, hbi⟩)]

/-- Consuming the identifier characters from an `ident` state and hitting
`(` emits the accumulated name. -/
theorem findSimpleCallsGo_consume (cs : List Char) :
    ∀ (p : Char) (acc : List Char) (post : List Char) (n : String),
      (∀ c ∈ cs, isAsciiIdent c = true) →
      sEmit p (acc ++ cs) = some n →
      n ∈ findSimpleCallsGo (.ident p acc) (cs ++ '(' :: post) := by
  induction cs with
  | nil =>
    intro p acc post n _ hemit
    simp only [List.append_nil] at hemit
    simp only [List.nil_append, findSimpleCallsGo, sStep]
    simp only [show isAsciiIdent '(' = false by decide, Bool.false_eq_true, if_false,
      if_pos rfl, hemit]
    exact List.mem_cons_self n _
  | cons c cs' ih =>
    intro p acc post n hall hemit
    simp only [List.cons_append]
    have hw : isAsciiIdent c = true := hall c (List.mem_cons_self c cs')
    simp only [findSimpleCallsGo, sStep, hw, if_pos]
    have := ih p (acc ++ [c]) post n
      (fun d hd => hall d (List.mem_cons_of_mem c hd))
      (by simpa [List.append_assoc] using hemit)
    simpa using this

/-- Entry from a scanning state at a word boundary whose previous character
is not `.`: the bare call is recorded. -/
theorem findSimpleCallsGo_entry_scan (z : Char) (name : String) (post : List Char)
    (hid : isIdentToken name.data = true) (hz : isAsciiIdent z = false) (hdot : z ≠ '.')
    (hkw : name ∉ goKeywords) (hbi : name ∉ goBuiltins) :
    name ∈ findSimpleCallsGo (.scan z) (name.data ++ '(' :: post) := by
  cases hn : name.data with
  | nil => rw [hn] at hid ; exact absurd hid (by simp [isIdentToken])
  | cons c cs =>
    rw [hn] at hid
    simp only [isIdentToken, Bool.and_eq_true] at hid
    simp only [hn, List.cons_append, findSimpleCallsGo, sStep]
    rw [if_pos ⟨hid.1, by simp [hz]⟩]
    have hall : ∀ d ∈ cs, isAsciiIdent d = true := by
      intro d hd
      exact List.all_eq_true.mp hid.2 d hd
    have hemit : sEmit z ([c] ++ cs) = some name := by
      have hcc : [c] ++ cs = name.data := by rw [hn] ; rfl
      rw [hcc]
      exact sEmit_of_checks z name hdot hkw hbi
    have := findSimpleCallsGo_consume cs z [c] post name hall hemit
    simpa using this

/-- Entry from a space-gap state: a following identifier starts a fresh
candidate with a space as its recorded predecessor. -/
theorem findSimpleCallsGo_entry_post (p : Char) (acc : List Char) (name : String)
    (post : List Char) (hid : isIdentToken name.data = true)
    (hkw : name ∉ goKeywords) (hbi : name ∉ goBuiltins) :
    name ∈ findSimpleCallsGo (.post p acc) (name.data ++ '(' :: post) := by
  cases hn : name.data with
  | nil => rw [hn] at hid ; exact absurd hid (by simp [isIdentToken])
  | cons c cs =>
    rw [hn] at hid
    simp only [isIdentToken, Bool.and_eq_true] at hid
    have hcsp : isPySpace c = false := identStart_not_space c hid.1
    have hcpar : c ≠ '(' := by
      intro he
      rw [he] at hid
      exact absurd hid.1 (by decide)
    simp only [hn, List.cons_append, findSimpleCallsGo, sStep]
    rw [if_neg (by simp [hcsp]), if_neg hcpar, if_pos hid.1]
    have hall : ∀ d ∈ cs, isAsciiIdent d = true := by
      intro d hd
      exact List.all_eq_true.mp hid.2 d hd
    have hemit : sEmit ' ' ([c] ++ cs) = some name := by
      have hcc : [c] ++ cs = name.data := by rw [hn] ; rfl
      rw [hcc]
      exact sEmit_of_checks ' ' name (by decide) hkw hbi
    have := findSimpleCallsGo_consume cs ' ' [c] post name hall hemit
    simpa using this

/-- Completeness of the `CALL_PATTERN` scan: every bare call in the claim's
sense is recorded by `_find_simple_calls`. -/
theorem findSimpleCalls_complete (body : List Char) (name : String)
    (h : BareCallAt body name) : name ∈ findSimpleCalls body := by
  obtain ⟨pre, post, hsplit, hid, hpre, hkw, hbi⟩ := h
  rw [hsplit]
  unfold findSimpleCalls
  rcases hpre with rfl | ⟨z, hlast, hz, hdot⟩
  · simpa using findSimpleCallsGo_entry_scan ' ' name post hid (by decide) (by decide)
      hkw hbi
  · have hpne : pre ≠ [] := by
      intro h0
      rw [h0] at hlast
      simp at hlast
    obtain ⟨pre', rfl⟩ : ∃ pre', pre = pre' ++ [z] := by
      refine ⟨pre.dropLast, ?_⟩
      have hgl : pre.getLast hpne = z := by
        rw [List.getLast?_eq_getLast pre hpne] at hlast
        exact Option.some_inj.mp hlast
      rw [← hgl, List.dropLast_append_getLast]
    have hin : name ∈
        findSimpleCallsGo (sStepAll (.scan ' ') (pre' ++ [z])) (name.data ++ '(' :: post) := by
      rw [sStepAll_append]
      cases hcase : (sStep (sStepAll (.scan ' ') pre') z).1 with
      | scan p =>
        have hp : p = z := sStep_scan_prev _ z p hcase
        subst hp
        exact findSimpleCallsGo_entry_scan p name post hid hz hdot hkw hbi
      | ident p acc =>
        exact absurd (sStep_ident_word _ z p acc hcase) (by simp [hz])
      | post p acc =>
        exact findSimpleCallsGo_entry_post p acc name post hid hkw hbi
    have hm := findSimpleCallsGo_march (pre' ++ [z]) (.scan ' ')
      (name.data ++ '(' :: post) name hin
    simpa [List.append_assoc] using hm

theorem mem_foldr_union {α β : Type} [DecidableEq β] (g : α → Finset β) :
    ∀ (xs : List α) (a : α) (b : β), a ∈ xs → b ∈ g a →
      b ∈ xs.foldr (fun x acc => g x ∪ acc) ∅ := by
  intro xs
  induction xs with
  | nil => intro a b ha _ ; exact absurd ha (List.not_mem_nil a)
  | cons x xs' ih =>
    intro a b ha hb
    simp only [List.foldr_cons, Finset.mem_union]
    rcases List.mem_cons.mp ha with rfl | ha'
    · exact Or.inl hb
    · exact Or.inr (ih a b ha' hb)

/-- A recorded bare call contributes an edge to every function registered
under the caller's directory and the called name. -/
theorem mem_calleesOf_simple (idx : RepoIndex) (f target : GoFn) (n : String)
    (hcall : n ∈ findSimpleCalls (sanitizeBody f.body))
    (htarget : target ∈ functionsByDirName idx f.dirPath n) :
    fnKey target ∈ calleesOf idx f := by
  simp only [calleesOf]
  apply Finset.mem_union_left
  refine mem_foldr_union
    (fun n => (keysOf (functionsByDirName idx f.dirPath n)).toFinset) _ n (fnKey target)
    hcall ?_
  exact List.mem_toFinset.mpr (List.mem_map.mpr ⟨target, htarget, rfl⟩)

/-- C1: whenever an indexed function's masked body contains a bare call
`name(` (identifier immediately followed by `(`, not preceded by `.`, not a
keyword or builtin), the call graph records a forward edge from the caller
to *every* indexed function with that name in the caller's directory. -/
theorem c1_bare_call_resolves_to_all_same_dir :
    ∀ (mp : Option String) (files : List SrcFile) (f target : GoFn) (name : String),
      f ∈ (buildRepositoryIndex mp files).1.functions →
      BareCallAt (sanitizeBody f.body) name →
      target ∈ (buildRepositoryIndex mp files).1.functions →
      target.dirPath = f.dirPath →
      target.name = name →
      fnKey target ∈ callEdgesFn (buildRepositoryIndex mp files).1 (fnKey f) := by
  intro mp files f target name hf hbare ht hdir hnm
  apply (mem_callEdgesFn _ _ _).mpr
  refine ⟨f, hf, rfl, ?_⟩
  apply mem_calleesOf_simple _ f target name (findSimpleCalls_complete _ _ hbare)
  exact List.mem_filter.mpr ⟨ht, by simp [hdir, hnm]⟩

/-- Two receiverless `Foo`s in the same directory, different files, and a
third function calling `Foo()`. -/
def c1Files : List SrcFile :=
  [{ path := "x.go", dir := "d", importPath := some "mod/d", relPath := some "d",
     aliasMap := [], source := "func Foo() {}" },
   { path := "y.go", dir := "d", importPath := some "mod/d", relPath := some "d",
     aliasMap := [], source := "func Foo() { y() }" },
   { path := "z.go", dir := "d", importPath := some "mod/d", relPath := some "d",
     aliasMap := [], source := "func C() { Foo() }" }]

def c1FooA : GoFn :=
  { filePath := "x.go", dirPath := "d", name := "Foo", receiverType := none,
    importPath := some "mod/d", relPath := some "d", body := "{}" }

def c1FooB : GoFn :=
  { filePath := "y.go", dirPath := "d", name := "Foo", receiverType := none,
    importPath := some "mod/d", relPath := some "d", body := "{ y() }" }

def c1Caller : GoFn :=
  { filePath := "z.go", dirPath := "d", name := "C", receiverType := none,
    importPath := some "mod/d", relPath := some "d", body := "{ Foo() }" }

/-- Witness for C1: the `Foo()` call in `z.go` produces edges to both
`Foo`s. -/
theorem c1_witness :
    fnKey c1FooA ∈ callEdgesFn (buildRepositoryIndex (some "mod") c1Files).1
      (fnKey c1Caller) ∧
    fnKey c1FooB ∈ callEdgesFn (buildRepositoryIndex (some "mod") c1Files).1
      (fnKey c1Caller) := by
  have hbare : BareCallAt (sanitizeBody c1Caller.body) "Foo" :=
    ⟨"\x7b ".data, ") \x7d".data, by decide, by decide,
      Or.inr ⟨' ', by decide, by decide, by decide⟩, by decide, by decide⟩
  exact ⟨c1_bare_call_resolves_to_all_same_dir (some "mod") c1Files c1Caller c1FooA "Foo"
      (by decide) hbare (by decide) (by decide) (by decide),
    c1_bare_call_resolves_to_all_same_dir (some "mod") c1Files c1Caller c1FooB "Foo"
      (by decide) hbare (by decide) (by decide) (by decide)⟩

/-! ## C2: selector-call resolution -/

/-- Modelled from the claim wording: the masked body contains a selector
call `als.name(` at a word boundary (`als` being the alias identifier). -/
def SelectorCallAt (body : List Char) (als name : String) : Prop :=
  ∃ pre post,
    body = pre ++ als.data ++ '.' :: (name.data ++ '(' :: post) ∧
    isIdentToken als.data = true ∧
    isIdentToken name.data = true ∧
    (pre = [] ∨ ∃ z, pre.getLast? = some z ∧ isAsciiIdent z = false)

def tStepAll (am : List (String × String)) (m : TMode) (pre : List Char) : TMode :=
  pre.foldl (fun m c => (tStep am m c).1) m

theorem tStepAll_append (am : List (String × String)) (m : TMode) (pre : List Char)
    (z : Char) : tStepAll am m (pre ++ [z]) = (tStep am (tStepAll am m pre) z).1 := by
  simp [tStepAll, List.foldl_append]

theorem tStep_scan_prev (am : List (String × String)) (m : TMode) (c p : Char)
    (h : (tStep am m c).1 = .scan p) : p = c := by
  cases m <;> simp only [tStep] at h <;> (repeat' split at h) <;>
    first
      | (simp_all ; done)
      | exact (TMode.scan.injEq .. ▸ h).symm

theorem tStep_id1_word (am : List (String × String)) (m : TMode) (c : Char)
    (acc : List Char) (h : (tStep am m c).1 = .id1 acc) : isAsciiIdent c = true := by
  cases m <;> simp only [tStep] at h <;> (repeat' split at h) <;>
    first
      | exact TMode.noConfusion h
      | (rename_i hcond ; exact identStart_isWord c hcond.1)
      | (rename_i h1 h2 h3 hcond ; exact identStart_isWord c hcond)
      | (rename_i hcond ; exact hcond)

theorem tStep_id2_word (am : List (String × String)) (m : TMode) (c : Char)
    (a acc : List Char) (h : (tStep am m c).1 = .id2 a acc) : isAsciiIdent c = true := by
  cases m <;> simp only [tStep] at h <;> (repeat' split at h) <;>
    first
      | exact TMode.noConfusion h
      | (rename_i hcond ; exact identStart_isWord c hcond)
      | (rename_i hcond ; exact hcond)

theorem findSelectorCallsGo_step (am : List (String × String)) (m : TMode) (c : Char)
    (rest : List Char) (x : String × String)
    (h : x ∈ findSelectorCallsGo am (tStep am m c).1 rest) :
    x ∈ findSelectorCallsGo am m (c :: rest) := by
  simp only [findSelectorCallsGo]
  cases he : tStep am m c with
  | mk m' e =>
    rw [he] at h
    cases e with
    | none => exact h
    | some n => exact List.mem_cons_of_mem n h

theorem findSelectorCallsGo_march (am : List (String × String)) (pre : List Char) :
    ∀ (m : TMode) (suffix : List Char) (x : String × String),
      x ∈ findSelectorCallsGo am (tStepAll am m pre) suffix →
      x ∈ findSelectorCallsGo am m (pre ++ suffix) := by
  induction pre with
  | nil => intro m suffix x h ; exact h
  | cons c pre' ih =>
    intro m suffix x h
    have hs : tStepAll am m (c :: pre') = tStepAll am ((tStep am m c).1) pre' := by
      simp [tStepAll]
    rw [hs] at h
    exact findSelectorCallsGo_step am m c (pre' ++ suffix) x
      (ih ((tStep am m c).1) suffix x h)

theorem tEmit_of_lookup (am : List (String × String)) (als name path : String)
    (hl : am.lookup als = some path) :
    tEmit am als.data name.data = some (path, name) := by
  simp only [tEmit]
  rw [show (⟨als.data⟩ : String) = als from rfl, hl]

theorem tConsume2 (am : List (String × String)) (cs : List Char) :
    ∀ (a1 acc post : List Char) (pn : String × String),
      (∀ c ∈ cs, isAsciiIdent c = true) →
      tEmit am a1 (acc ++ cs) = some pn →
      pn ∈ findSelectorCallsGo am (.id2 a1 acc) (cs ++ '(' :: post) := by
  induction cs with
  | nil =>
    intro a1 acc post pn _ hemit
    simp only [List.append_nil] at hemit
    simp only [List.nil_append, findSelectorCallsGo, tStep]
    simp only [show isAsciiIdent '(' = false by decide, Bool.false_eq_true, if_false,
      if_neg (by decide : ¬('(' : Char) = '.'), if_pos rfl, hemit]
    exact List.mem_cons_self pn _
  | cons c cs' ih =>
    intro a1 acc post pn hall hemit
    simp only [List.cons_append]
    have hw : isAsciiIdent c = true := hall c (List.mem_cons_self c cs')
    simp only [findSelectorCallsGo, tStep, hw, if_pos]
    have := ih a1 (acc ++ [c]) post pn
      (fun d hd => hall d (List.mem_cons_of_mem c hd))
      (by simpa [List.append_assoc] using hemit)
    simpa using this

theorem tFromDot (am : List (String × String)) (als name path : String)
    (post : List Char) (hidn : isIdentToken name.data = true)
    (hl : am.lookup als = some path) :
    (path, name) ∈ findSelectorCallsGo am (.dot als.data) (name.data ++ '(' :: post) := by
  cases hn : name.data with
  | nil => rw [hn] at hidn ; exact absurd hidn (by simp [isIdentToken])
  | cons c cs =>
    rw [hn] at hidn
    simp only [isIdentToken, Bool.and_eq_true] at hidn
    simp only [hn, List.cons_append, findSelectorCallsGo, tStep]
    rw [if_pos hidn.1]
    have hall : ∀ d ∈ cs, isAsciiIdent d = true := by
      intro d hd
      exact List.all_eq_true.mp hidn.2 d hd
    have hemit : tEmit am als.data ([c] ++ cs) = some (path, name) := by
      have hcc : [c] ++ cs = name.data := by rw [hn] ; rfl
      rw [hcc]
      exact tEmit_of_lookup am als name path hl
    have := tConsume2 am cs als.data [c] post (path, name) hall hemit
    simpa using this

theorem tConsume1 (am : List (String × String)) (cs : List Char) :
    ∀ (acc tail : List Char) (pn : String × String),
      (∀ c ∈ cs, isAsciiIdent c = true) →
      pn ∈ findSelectorCallsGo am (.dot (acc ++ cs)) tail →
      pn ∈ findSelectorCallsGo am (.id1 acc) (cs ++ '.' :: tail) := by
  induction cs with
  | nil =>
    intro acc tail pn _ hdot
    simp only [List.append_nil] at hdot
    simp only [List.nil_append, findSelectorCallsGo, tStep]
    simp only [show isAsciiIdent '.' = false by decide, Bool.false_eq_true, if_false,
      if_pos rfl]
    exact hdot
  | cons c cs' ih =>
    intro acc tail pn hall hdot
    simp only [List.cons_append]
    have hw : isAsciiIdent c = true := hall c (List.mem_cons_self c cs')
    simp only [findSelectorCallsGo, tStep, hw, if_pos]
    have := ih (acc ++ [c]) tail pn
      (fun d hd => hall d (List.mem_cons_of_mem c hd))
      (by simpa [List.append_assoc] using hdot)
    simpa using this

theorem tConsume1' (am : List (String × String)) (cs : List Char) :
    ∀ (a0 acc tail : List Char) (pn : String × String),
      (∀ c ∈ cs, isAsciiIdent c = true) →
      pn ∈ findSelectorCallsGo am (.dot (acc ++ cs)) tail →
      pn ∈ findSelectorCallsGo am (.id2 a0 acc) (cs ++ '.' :: tail) := by
  induction cs with
  | nil =>
    intro a0 acc tail pn _ hdot
    simp only [List.append_nil] at hdot
    simp only [List.nil_append, findSelectorCallsGo, tStep]
    simp only [show isAsciiIdent '.' = false by decide, Bool.false_eq_true, if_false,
      if_pos rfl]
    exact hdot
  | cons c cs' ih =>
    intro a0 acc tail pn hall hdot
    simp only [List.cons_append]
    have hw : isAsciiIdent c = true := hall c (List.mem_cons_self c cs')
    simp only [findSelectorCallsGo, tStep, hw, if_pos]
    have := ih a0 (acc ++ [c]) tail pn
      (fun d hd => hall d (List.mem_cons_of_mem c hd))
      (by simpa [List.append_assoc] using hdot)
    simpa using this

/-- Entry: from a scanning state at a word boundary, a `.`-expecting state,
or a space-gap state, the selector call is recorded. -/
theorem tEntry (am : List (String × String)) (als name path : String) (st : TMode)
    (post : List Char) (hida : isIdentToken als.data = true)
    (hidn : isIdentToken name.data = true) (hl : am.lookup als = some path)
    (hst : (∃ z, st = .scan z ∧ isAsciiIdent z = false) ∨ (∃ acc0, st = .dot acc0) ∨
      (∃ a0 acc0, st = .post2 a0 acc0)) :
    (path, name) ∈ findSelectorCallsGo am st
      (als.data ++ '.' :: (name.data ++ '(' :: post)) := by
  cases ha : als.data with
  | nil => rw [ha] at hida ; exact absurd hida (by simp [isIdentToken])
  | cons c cs =>
    rw [ha] at hida
    simp only [isIdentToken, Bool.and_eq_true] at hida
    have hall : ∀ d ∈ cs, isAsciiIdent d = true := by
      intro d hd
      exact List.all_eq_true.mp hida.2 d hd
    have hdot : (path, name) ∈
        findSelectorCallsGo am (.dot ([c] ++ cs)) (name.data ++ '(' :: post) := by
      have hcc : [c] ++ cs = als.data := by rw [ha] ; rfl
      rw [hcc]
      exact tFromDot am als name path post hidn hl
    rcases hst with ⟨z, rfl, hz⟩ | ⟨acc0, rfl⟩ | ⟨a0, acc0, rfl⟩
    · simp only [ha, List.cons_append, findSelectorCallsGo, tStep]
      rw [if_pos ⟨hida.1, by simp [hz]⟩]
      have := tConsume1 am cs [c] (name.data ++ '(' :: post) (path, name) hall hdot
      simpa using this
    · simp only [ha, List.cons_append, findSelectorCallsGo, tStep]
      rw [if_pos hida.1]
      have := tConsume1' am cs acc0 [c] (name.data ++ '(' :: post) (path, name) hall hdot
      simpa using this
    · have hcsp : isPySpace c = false := identStart_not_space c hida.1
      have hcpar : c ≠ '(' := by
        intro he
        rw [he] at hida
        exact absurd hida.1 (by decide)
      simp only [ha, List.cons_append, findSelectorCallsGo, tStep]
      rw [if_neg (by simp [hcsp]), if_neg hcpar, if_pos hida.1]
      have := tConsume1 am cs [c] (name.data ++ '(' :: post) (path, name) hall hdot
      simpa using this

/-- Completeness of the `SELECTOR_CALL_PATTERN` scan with alias lookup. -/
theorem findSelectorCalls_complete (body : List Char) (als name path : String)
    (am : List (String × String)) (h : SelectorCallAt body als name)
    (hl : am.lookup als = some path) :
    (path, name) ∈ findSelectorCalls body am := by
  obtain ⟨pre, post, hsplit, hida, hidn, hpre⟩ := h
  rw [hsplit]
  unfold findSelectorCalls
  rcases hpre with rfl | ⟨z, hlast, hz⟩
  · simpa using tEntry am als name path (.scan ' ') post hida hidn hl
      (Or.inl ⟨' ', rfl, by decide⟩)
  · have hpne : pre ≠ [] := by
      intro h0
      rw [h0] at hlast
      simp at hlast
    obtain ⟨pre', rfl⟩ : ∃ pre', pre = pre' ++ [z] := by
      refine ⟨pre.dropLast, ?_⟩
      have hgl : pre.getLast hpne = z := by
        rw [List.getLast?_eq_getLast pre hpne] at hlast
        exact Option.some_inj.mp hlast
      rw [← hgl, List.dropLast_append_getLast]
    have hin : (path, name) ∈
        findSelectorCallsGo am (tStepAll am (.scan ' ') (pre' ++ [z]))
          (als.data ++ '.' :: (name.data ++ '(' :: post)) := by
      rw [tStepAll_append]
      cases hcase : (tStep am (tStepAll am (.scan ' ') pre') z).1 with
      | scan p =>
        have hp : p = z := tStep_scan_prev am _ z p hcase
        subst hp
        exact tEntry am als name path (.scan p) post hida hidn hl (Or.inl ⟨p, rfl, hz⟩)
      | id1 acc =>
        exact absurd (tStep_id1_word am _ z acc hcase) (by simp [hz])
      | dot acc =>
        exact tEntry am als name path (.dot acc) post hida hidn hl (Or.inr (Or.inl ⟨acc, rfl⟩))
      | id2 a acc =>
        exact absurd (tStep_id2_word am _ z a acc hcase) (by simp [hz])
      | post2 a acc =>
        exact tEntry am als name path (.post2 a acc) post hida hidn hl
          (Or.inr (Or.inr ⟨a, acc, rfl⟩))
    have hm := findSelectorCallsGo_march am (pre' ++ [z]) (.scan ' ')
      (als.data ++ '.' :: (name.data ++ '(' :: post)) (path, name) hin
    simpa [List.append_assoc] using hm

theorem mem_foldr_union_iff {α β : Type} [DecidableEq β] (g : α → Finset β) :
    ∀ (xs : List α) (b : β),
      b ∈ xs.foldr (fun x acc => g x ∪ acc) ∅ ↔ ∃ a ∈ xs, b ∈ g a := by
  intro xs
  induction xs with
  | nil => intro b ; simp
  | cons x xs' ih =>
    intro b
    simp only [List.foldr_cons, Finset.mem_union, ih, List.mem_cons]
    constructor
    · rintro (h | ⟨a, ha, hb⟩)
      · exact ⟨x, Or.inl rfl, h⟩
      · exact ⟨a, Or.inr ha, hb⟩
    · rintro ⟨a, rfl | ha, hb⟩
      · exact Or.inl hb
      · exact Or.inr ⟨a, ha, hb⟩

theorem mem_foldr_append_iff {α β : Type} (g : α → List β) :
    ∀ (xs : List α) (b : β),
      b ∈ xs.foldr (fun x acc => g x ++ acc) [] ↔ ∃ a ∈ xs, b ∈ g a := by
  intro xs
  induction xs with
  | nil => intro b ; simp
  | cons x xs' ih =>
    intro b
    simp only [List.foldr_cons, List.mem_append, ih, List.mem_cons]
    constructor
    · rintro (h | ⟨a, ha, hb⟩)
      · exact ⟨x, Or.inl rfl, h⟩
      · exact ⟨a, Or.inr ha, hb⟩
    · rintro ⟨a, rfl | ha, hb⟩
      · exact Or.inl hb
      · exact Or.inr ⟨a, ha, hb⟩

/-- The selector-resolution step is exactly the union of the
`(import-path, name)` lookup and the matched `(rel-path, name)` lookups. -/
theorem mem_selResolveKeys (idx : RepoIndex) (p n : String) (k : FKey) :
    k ∈ selResolveKeys idx p n ↔
      (∃ g ∈ functionsByImportPathName idx p n, fnKey g = k) ∨
      (∃ rel ∈ matchImportToRelPaths p (relPathsPresent idx) idx.modulePath,
        ∃ g ∈ functionsByRelPathName idx rel n, fnKey g = k) := by
  simp only [selResolveKeys, List.mem_append, keysOf, List.mem_map]
  constructor
  · rintro (⟨g, hg, rfl⟩ | h)
    · exact Or.inl ⟨g, hg, rfl⟩
    · obtain ⟨rel, hrel, hk⟩ := (mem_foldr_append_iff
        (fun rp => (functionsByRelPathName idx rp n).map fnKey) _ k).mp h
      obtain ⟨g, hg, rfl⟩ := List.mem_map.mp hk
      exact Or.inr ⟨rel, hrel, g, hg, rfl⟩
  · rintro (⟨g, hg, rfl⟩ | ⟨rel, hrel, g, hg, rfl⟩)
    · exact Or.inl ⟨g, hg, rfl⟩
    · refine Or.inr ((mem_foldr_append_iff
        (fun rp => (functionsByRelPathName idx rp n).map fnKey) _ (fnKey g)).mpr ?_)
      exact ⟨rel, hrel, List.mem_map.mpr ⟨g, hg, rfl⟩⟩

/-- Membership in `_match_import_to_rel_paths`: a present relative path that
is the whole import path, one of its `/`-suffixes, or its module-relative
remainder. -/
theorem mem_matchImportToRelPaths (p : String) (present : List String)
    (mp : Option String) (rel : String) :
    rel ∈ matchImportToRelPaths p present mp ↔
      p ≠ "" ∧ rel ∈ present ∧
        ((∃ i < (splitOnChar '/' p.data).length,
            rel = ⟨List.intercalate ['/'] ((splitOnChar '/' p.data).drop i)⟩) ∨
          (∃ m, mp = some m ∧ m ≠ "" ∧ (m.data ++ ['/']).isPrefixOf p.data ∧
            rel = ⟨p.data.drop (m.data.length + 1)⟩)) := by
  by_cases hp : p = ""
  · simp [matchImportToRelPaths, hp]
  · simp only [matchImportToRelPaths, if_neg hp, List.mem_filter, List.mem_append,
      List.mem_map, List.mem_range, decide_eq_true_eq]
    constructor
    · rintro ⟨⟨i, hi, rfl⟩ | hmod, hpres⟩
      · exact ⟨hp, hpres, Or.inl ⟨i, hi, rfl⟩⟩
      · refine ⟨hp, hpres, Or.inr ?_⟩
        cases mp with
        | none => simp at hmod
        | some m =>
          by_cases hm : m = ""
          · simp [hm] at hmod
          · by_cases hpre : (m.data ++ ['/']).isPrefixOf p.data
            · simp only [if_neg hm, if_pos hpre, List.mem_singleton] at hmod
              exact ⟨m, rfl, hm, hpre, hmod⟩
            · simp [hm, hpre] at hmod
    · rintro ⟨-, hpres, ⟨i, hi, rfl⟩ | ⟨m, rfl, hm, hpre, rfl⟩⟩
      · exact ⟨Or.inl ⟨i, hi, rfl⟩, hpres⟩
      · refine ⟨Or.inr ?_, hpres⟩
        show _ ∈ (if m = "" then ([] : List String)
          else if (m.data ++ ['/']).isPrefixOf p.data = true then
            [(⟨p.data.drop (m.data.length + 1)⟩ : String)] else [])
        rw [if_neg hm, if_pos hpre]
        exact List.mem_singleton.mpr rfl

/-- Specialized fold-membership lemma for the bare-call contribution. -/
theorem mem_dirFold_iff (idx : RepoIndex) (dir : String) (xs : List String) (k : FKey) :
    k ∈ xs.foldr
        (fun n acc => (keysOf (functionsByDirName idx dir n)).toFinset ∪ acc) ∅ ↔
      ∃ n ∈ xs, ∃ g ∈ functionsByDirName idx dir n, fnKey g = k := by
  induction xs with
  | nil => simp
  | cons x xs' ih =>
    simp only [List.foldr_cons, Finset.mem_union, ih, List.mem_cons]
    constructor
    · rintro (h | ⟨n, hn, hg⟩)
      · obtain ⟨g, hg, rfl⟩ := List.mem_map.mp (List.mem_toFinset.mp h)
        exact ⟨x, Or.inl rfl, g, hg, rfl⟩
      · exact ⟨n, Or.inr hn, hg⟩
    · rintro ⟨n, rfl | hn, g, hg, rfl⟩
      · exact Or.inl (List.mem_toFinset.mpr (List.mem_map.mpr ⟨g, hg, rfl⟩))
      · exact Or.inr ⟨n, hn, g, hg, rfl⟩

/-- Specialized fold-membership lemma for the selector-call contribution. -/
theorem mem_selFold_iff (idx : RepoIndex) (xs : List (String × String)) (k : FKey) :
    k ∈ xs.foldr (fun pn acc => (selResolveKeys idx pn.1 pn.2).toFinset ∪ acc) ∅ ↔
      ∃ pn ∈ xs, k ∈ selResolveKeys idx pn.1 pn.2 := by
  induction xs with
  | nil => simp
  | cons x xs' ih =>
    simp only [List.foldr_cons, Finset.mem_union, ih, List.mem_cons]
    constructor
    · rintro (h | ⟨pn, hpn, hk⟩)
      · exact ⟨x, Or.inl rfl, List.mem_toFinset.mp h⟩
      · exact ⟨pn, Or.inr hpn, hk⟩
    · rintro ⟨pn, rfl | hpn, hk⟩
      · exact Or.inl (List.mem_toFinset.mpr hk)
      · exact Or.inr ⟨pn, hpn, hk⟩

/-- Exact characterization of a caller's callee set: every edge comes from
a recorded bare call resolved in the caller's directory or from a recorded
selector call resolved through `selResolveKeys` — and nothing else. -/
theorem mem_calleesOf_iff (idx : RepoIndex) (f : GoFn) (k : FKey) :
    k ∈ calleesOf idx f ↔
      (∃ n ∈ findSimpleCalls (sanitizeBody f.body),
        ∃ g ∈ functionsByDirName idx f.dirPath n, fnKey g = k) ∨
      (∃ pn ∈ findSelectorCalls (sanitizeBody f.body) (aliasMapOf idx f.filePath),
        k ∈ selResolveKeys idx pn.1 pn.2) := by
  simp only [calleesOf, Finset.mem_union]
  rw [mem_dirFold_iff, mem_selFold_iff]

/-- C2: a selector call `als.name(` whose alias maps to `path` is resolved
to the union of (a) the `(import-path, name)` registrations and (b) the
`(rel-path, name)` registrations for every relative path matched from the
matched import path (whole, `/`-suffix, or module-relative remainder), no key
from any other source — and every resolved key becomes a forward edge of
the caller. -/
theorem c2_selector_call_resolution :
    ∀ (mp : Option String) (files : List SrcFile) (f : GoFn) (als path name : String),
      f ∈ (buildRepositoryIndex mp files).1.functions →
      SelectorCallAt (sanitizeBody f.body) als name →
      (aliasMapOf (buildRepositoryIndex mp files).1 f.filePath).lookup als = some path →
      (path, name) ∈
        findSelectorCalls (sanitizeBody f.body)
          (aliasMapOf (buildRepositoryIndex mp files).1 f.filePath) ∧
      (∀ k, k ∈ selResolveKeys (buildRepositoryIndex mp files).1 path name ↔
        (∃ g ∈ functionsByImportPathName (buildRepositoryIndex mp files).1 path name,
          fnKey g = k) ∨
        (∃ rel ∈ matchImportToRelPaths path
            (relPathsPresent (buildRepositoryIndex mp files).1) mp,
          ∃ g ∈ functionsByRelPathName (buildRepositoryIndex mp files).1 rel name,
            fnKey g = k)) ∧
      (∀ k ∈ selResolveKeys (buildRepositoryIndex mp files).1 path name,
        k ∈ callEdgesFn (buildRepositoryIndex mp files).1 (fnKey f)) := by
  intro mp files f als path name hf hsel hl
  have hrec := findSelectorCalls_complete (sanitizeBody f.body) als name path
    (aliasMapOf (buildRepositoryIndex mp files).1 f.filePath) hsel hl
  refine ⟨hrec, fun k => mem_selResolveKeys _ path name k, fun k hk => ?_⟩
  apply (mem_callEdgesFn _ _ _).mpr
  refine ⟨f, hf, rfl, ?_⟩
  exact (mem_calleesOf_iff _ f k).mpr (Or.inr ⟨(path, name), hrec, hk⟩)

/-- `pkg.Helper()` example: alias `pkg` maps to `mod/sub`, where a
receiverless `Helper` lives. -/
def c2Files : List SrcFile :=
  [{ path := "sub/x.go", dir := "sub", importPath := some "mod/sub",
     relPath := some "sub", aliasMap := [], source := "func Helper() {}" },
   { path := "a.go", dir := "", importPath := some "mod", relPath := some "",
     aliasMap := [("pkg", "mod/sub")], source := "func C() { pkg.Helper() }" }]

def c2Helper : GoFn :=
  { filePath := "sub/x.go", dirPath := "sub", name := "Helper", receiverType := none,
    importPath := some "mod/sub", relPath := some "sub", body := "{}" }

def c2Caller : GoFn :=
  { filePath := "a.go", dirPath := "", name := "C", receiverType := none,
    importPath := some "mod", relPath := some "", body := "{ pkg.Helper() }" }

/-- Witness for C2: the `pkg.Helper()` call produces an edge to the
`Helper` registered under import path `mod/sub`. -/
theorem c2_witness :
    fnKey c2Helper ∈
      callEdgesFn (buildRepositoryIndex (some "mod") c2Files).1 (fnKey c2Caller) := by
  have h := c2_selector_call_resolution (some "mod") c2Files c2Caller "pkg" "mod/sub"
    "Helper" (by decide)
    ⟨"\x7b ".data, ") \x7d".data, by decide, by decide, by decide,
      Or.inr ⟨' ', by decide, by decide⟩⟩
    (by decide)
  exact h.2.2 (fnKey c2Helper) (by decide)
